import Mathlib

/-!
# FinancialDataUploader — verification of the normalization / dual-sink pipeline

Shallow embedding of the financial-data pipeline of the repository
(`StockFinancials` in the unnamed module, `FinancialsDataManager` in
`bigQuery.ts`) together with proofs about the spec's claims.

JavaScript objects are embedded as ordered association lists of
`String × JValue` (JSON objects preserve insertion order for non-integer
keys, which is the only kind of key this pipeline uses).  JavaScript
`Date` values are embedded as `Option Int` — `some t` is the instant `t`
in epoch seconds, `none` is JavaScript's `Invalid Date`.  Numbers are
embedded as `Int`: the pipeline performs no arithmetic on field values,
so the only property of numbers that matters is which values are numeric.
Fallible code returns `Except JsError`.
-/

namespace FinUp

/-- A JavaScript/JSON value as handled by the pipeline.  `jdate none`
is JavaScript's `Invalid Date`; `jsUndefined` is `undefined`. -/
inductive JValue where
  | jnull : JValue
  | jsUndefined : JValue
  | jbool : Bool → JValue
  | jnum : Int → JValue
  | jstr : String → JValue
  | jdate : Option Int → JValue
  | jobj : List (String × JValue) → JValue
deriving Repr

/-- A flat record (a JS object), as an ordered association list. -/
abbrev RecordJ := List (String × JValue)

/-- First-match association-list lookup: property read on a JS object. -/
def lookupPair : RecordJ → String → Option JValue
  | [], _ => none
  | (k', v) :: rest, k => if k' = k then some v else lookupPair rest k

/-- Property read on a record; `none` when the field is absent. -/
def getFieldOpt (r : RecordJ) (k : String) : Option JValue :=
  lookupPair r k

/-- JS property assignment `obj[k] = v`: replace in place if the key
exists (keeping its position), otherwise append. -/
def setField : RecordJ → String → JValue → RecordJ
  | [], k, v => [(k, v)]
  | (k', v') :: rest, k, v =>
      if k' = k then (k', v) :: rest else (k', v') :: setField rest k v

/-- Object-spread accumulation `{...a, ...b}`: assign each of `b`'s
pairs, in order, onto `a`. -/
def spread (a b : RecordJ) : RecordJ :=
  b.foldl (fun acc p => setField acc p.1 p.2) a

/-- A JS object literal built by assigning the listed pairs in order
onto the empty object (the semantics of `{...x, k: v, ...}`). -/
def objLit (pairs : List (String × JValue)) : RecordJ :=
  spread [] pairs

/-- JS truthiness.  (A native `NaN` number is not representable in this
embedding; every `jnum` is a genuine integer, hence truthy iff nonzero.) -/
def jsTruthy : JValue → Bool
  | .jnull => false
  | .jsUndefined => false
  | .jbool b => b
  | .jnum n => n != 0
  | .jstr s => s ≠ ""
  | .jdate _ => true
  | .jobj _ => true

/-- Optional-chain property access `v?.k`: `undefined` unless `v` is an
object owning the key. -/
def jsGet (v : JValue) (k : String) : JValue :=
  match v with
  | .jobj fields => (lookupPair fields k).getD .jsUndefined
  | _ => .jsUndefined

/-- The pairs spread out of a value (`Object.entries`); non-objects
contribute nothing (the payload sections are always objects). -/
def entriesOf : JValue → List (String × JValue)
  | .jobj fields => fields
  | _ => []

/-- `Object.keys` of a value (payload objects have no duplicate keys). -/
def objectKeys (v : JValue) : List String :=
  (entriesOf v).map Prod.fst

/-- The errors thrown by the pipeline. -/
inductive JsError where
  | noFinancials : JsError
  | etf : JsError
  | rangeError : JsError
  | writeError : JsError
deriving Repr, DecidableEq

/-! ## Calendar arithmetic

The source delegates date handling to `moment-timezone`.  The embedding
models the parts it uses: parsing a `YYYY-MM-DD` date string, anchoring
it to 16:00 in `America/New_York`, converting to UTC, and formatting the
resulting instant as an ISO-8601 string (`Date.prototype.toISOString`).
Civil-date/day-count conversion uses the standard Gregorian era
decomposition (era = 400 years = 146097 days), counting days from
0000-03-01 so that all arithmetic stays in `Nat`. -/

/-- Day count of a civil date, measured from 0000-03-01 (valid for
years ≥ 1, which covers every date this pipeline can see). -/
def daysFromCivil (y m d : Nat) : Nat :=
  let y' := if m ≤ 2 then y - 1 else y
  let era := y' / 400
  let yoe := y' % 400
  let mp := if 2 < m then m - 3 else m + 9
  let doy := (153 * mp + 2) / 5 + d - 1
  let doe := yoe * 365 + yoe / 4 - yoe / 100 + doy
  era * 146097 + doe

/-- Inverse of `daysFromCivil`: day count back to `(year, month, day)`. -/
def civilFromDays (z : Nat) : Nat × Nat × Nat :=
  let era := z / 146097
  let doe := z % 146097
  let yoe := (doe - doe / 1460 + doe / 36524 - doe / 146096) / 365
  let y := yoe + era * 400
  let doy := doe - (365 * yoe + yoe / 4 - yoe / 100)
  let mp := (5 * doy + 2) / 153
  let d := doy - (153 * mp + 2) / 5 + 1
  let m := if mp < 10 then mp + 3 else mp - 9
  (if m ≤ 2 then y + 1 else y, m, d)

/-- `daysFromCivil` at the Unix epoch, 1970-01-01. -/
def epochCivilDays : Nat := daysFromCivil 1970 1 1

/-- Day of week of a civil date, `0` = Sunday. -/
def dayOfWeek (y m d : Nat) : Nat :=
  (daysFromCivil y m d + 3) % 7

/-- Day of month of the first Sunday of month `m` in year `y`. -/
def firstSundayOf (y m : Nat) : Nat :=
  (7 - dayOfWeek y m 1) % 7 + 1

/-- Whether 16:00 local time on the given New York civil date falls in
daylight-saving time.  Models the post-2007 US rule used by the tz
database for `America/New_York`: DST from the second Sunday of March to
the first Sunday of November (transitions at 02:00, so 16:00 of both
transition days is unambiguous). -/
def isNyDst (y m d : Nat) : Bool :=
  (4 ≤ m && m ≤ 10)
    || (m == 3 && firstSundayOf y 3 + 7 ≤ d)
    || (m == 11 && d < firstSundayOf y 11)

/-- Split a character list on a separator (used to model the date-string
parsing that `moment` performs on `YYYY-MM-DD` inputs). -/
def splitCharList (sep : Char) : List Char → List (List Char)
  | [] => [[]]
  | c :: rest =>
      let parts := splitCharList sep rest
      if c = sep then [] :: parts
      else
        match parts with
        | [] => [[c]]
        | p :: ps => (c :: p) :: ps

/-- Digits-only decimal reading of a character list. -/
def digitsToNat? (cs : List Char) : Option Nat :=
  if cs = [] ∨ ¬ cs.all Char.isDigit then none
  else some (cs.foldl (fun acc c => acc * 10 + (c.toNat - 48)) 0)

/-- Days in a month of the proleptic Gregorian calendar. -/
def daysInMonth (y m : Nat) : Nat :=
  if m = 2 then
    if y % 4 = 0 ∧ (y % 100 ≠ 0 ∨ y % 400 = 0) then 29 else 28
  else if m = 4 ∨ m = 6 ∨ m = 9 ∨ m = 11 then 30
  else 31

/-- Parse a `YYYY-MM-DD` date string; `none` is `moment`'s invalid
date (e.g. for the bulk-path keys `quarterly_last_0` … `yearly_last_3`,
which are not dates). -/
def parseDateStr (s : String) : Option (Nat × Nat × Nat) :=
  match (splitCharList '-' s.toList).map digitsToNat? with
  | [some y, some m, some d] =>
      if 1 ≤ m ∧ m ≤ 12 ∧ 1 ≤ d ∧ d ≤ daysInMonth y m ∧ 1 ≤ y then
        some (y, m, d)
      else none
  | _ => none

/-- `StockFinancials.getClose`: anchor a date string to 16:00 in
`America/New_York` and convert to UTC; the result is the instant in
epoch seconds, `none` being an Invalid Date. -/
def getClose (datestring : String) : Option Int :=
  (parseDateStr datestring).map fun c =>
    let (y, m, d) := c
    ((daysFromCivil y m d : Int) - (epochCivilDays : Int)) * 86400
      + 16 * 3600
      + (if isNyDst y m d then 4 else 5) * 3600

/-- Zero-pad a numeral to two digits. -/
def pad2 (n : Nat) : String :=
  if n < 10 then "0" ++ toString n else toString n

/-- Zero-pad a numeral to four digits. -/
def pad4 (n : Nat) : String :=
  if n < 10 then "000" ++ toString n
  else if n < 100 then "00" ++ toString n
  else if n < 1000 then "0" ++ toString n
  else toString n

/-- The date-time part of the ISO rendering of a (nonnegative) epoch
instant.  Instants in this pipeline are whole seconds, so the
millisecond part is always `000` (appended in `isoString`). -/
def isoCore (t : Int) : String :=
  let s := t.toNat
  let days := s / 86400
  let rem := s % 86400
  let c := civilFromDays (days + epochCivilDays)
  pad4 c.1 ++ "-" ++ pad2 c.2.1 ++ "-" ++ pad2 c.2.2 ++ "T"
    ++ pad2 (rem / 3600) ++ ":" ++ pad2 (rem % 3600 / 60) ++ ":"
    ++ pad2 (rem % 60)

/-- `Date.prototype.toISOString` on a valid date (epoch seconds,
nonnegative for every date this pipeline can see). -/
def isoString (t : Int) : String :=
  isoCore t ++ ".000Z"

/-- `record.date.toISOString()`: throws `RangeError: Invalid time value`
on an Invalid Date. -/
def toIso : Option Int → Except JsError String
  | none => .error .rangeError
  | some t => .ok (isoString t)

/-! ## `StockFinancials` — record normalization -/

/-- The date string selected by `details?.filing_date || dictKey`
(filing dates in the payload are date strings; a falsy or missing
filing date falls back to the dictionary key). -/
def chosenDateStr (details : JValue) (dictKey : String) : String :=
  match jsGet details "filing_date" with
  | .jstr s => if s = "" then dictKey else s
  | _ => dictKey

/-- `StockFinancials.processFinancialData`: the object literal
`{...details, ticker, symbol: ticker, date: getClose(...), filing_date: undefined}`. -/
def processFinancialData (ticker dictKey : String) (details : JValue) : RecordJ :=
  objLit (entriesOf details ++
    [("ticker", .jstr ticker),
     ("symbol", .jstr ticker),
     ("date", .jdate (getClose (chosenDateStr details dictKey))),
     ("filing_date", .jsUndefined)])

/-- The per-processing-run accumulator `Map<string, any>` (JS `Map`
preserves first-insertion order of keys). -/
abbrev JMap := List (String × RecordJ)

/-- JS `Map.get`. -/
def mapGet : JMap → String → Option RecordJ
  | [], _ => none
  | (k', v) :: rest, k => if k' = k then some v else mapGet rest k

/-- JS `Map.set`: overwrite in place, else append. -/
def mapSet : JMap → String → RecordJ → JMap
  | [], k, v => [(k, v)]
  | (k', v') :: rest, k, v =>
      if k' = k then (k', v) :: rest else (k', v') :: mapSet rest k v

/-- `StockFinancials.mergeRecord`: drop falsy keys, otherwise shallow-merge
`{...existing, ...newData}` into the map. -/
def mergeRecord (m : JMap) (key : Option String) (newData : RecordJ) : JMap :=
  match key with
  | none => m
  | some k =>
      if k = "" then m
      else mapSet m k (spread ((mapGet m k).getD []) newData)

/-- The `date` field of a processed record, rendered as its merge key;
`Except` because `toISOString` throws on an Invalid Date.  (The `date`
field is always the `Date` installed by `processFinancialData`; the
catch-all branch is unreachable.) -/
def recordKey (r : RecordJ) : Except JsError String :=
  match getFieldOpt r "date" with
  | some (.jdate d) => toIso d
  | _ => .error .rangeError

/-- One iteration of the normalization loops: build the record for one
period entry and merge it into the accumulator under its ISO date key. -/
def normStep (ticker : String) (m : JMap) (e : String × JValue) :
    Except JsError JMap := do
  let record := processFinancialData ticker e.1 e.2
  let key ← recordKey record
  pure (mergeRecord m (some key) record)

/-- Fold the normalization step over a list of `(dictKey, details)`
period entries (the order the nested `forEach` loops visit them in). -/
def buildMap (ticker : String) (m0 : JMap) (entries : List (String × JValue)) :
    Except JsError JMap :=
  entries.foldlM (normStep ticker) m0

/-- The quarterly period entries of a single-ticker payload, in the
iteration order of `fetchFinancials` (`Balance_Sheet`, `Cash_Flow`,
`Income_Statement`; `|| {}` turns a missing section into no entries). -/
def quarterlyEntries (fundamentals : JValue) : List (String × JValue) :=
  let fin := jsGet fundamentals "Financials"
  entriesOf (jsGet (jsGet fin "Balance_Sheet") "quarterly")
    ++ entriesOf (jsGet (jsGet fin "Cash_Flow") "quarterly")
    ++ entriesOf (jsGet (jsGet fin "Income_Statement") "quarterly")

/-- The yearly period entries of a single-ticker payload, in iteration
order. -/
def yearlyEntries (fundamentals : JValue) : List (String × JValue) :=
  let fin := jsGet fundamentals "Financials"
  entriesOf (jsGet (jsGet fin "Balance_Sheet") "yearly")
    ++ entriesOf (jsGet (jsGet fin "Cash_Flow") "yearly")
    ++ entriesOf (jsGet (jsGet fin "Income_Statement") "yearly")

/-- `Object.keys(fundamentals.Financials || {}).length === 0`. -/
def financialsEmpty (fundamentals : JValue) : Bool :=
  let fin := jsGet fundamentals "Financials"
  if jsTruthy fin then objectKeys fin = [] else true

/-- `StockFinancials.fetchFinancials` (the normalization part; the
network fetch is the caller-supplied `fundamentals` payload, `jnull`
standing for a missing payload). -/
def fetchFinancials (ticker : String) (fundamentals : JValue) :
    Except JsError (List RecordJ × List RecordJ) := do
  if ¬ jsTruthy fundamentals then
    throw .noFinancials
  else if jsTruthy (jsGet fundamentals "ETF_Data") then
    throw .etf
  else if financialsEmpty fundamentals then
    throw .noFinancials
  else
    let qm ← buildMap ticker [] (quarterlyEntries fundamentals)
    let am ← buildMap ticker [] (yearlyEntries fundamentals)
    pure (qm.map Prod.snd, am.map Prod.snd)

/-- The bulk-path period entries for one granularity: for each of the
three statement sections, the truthy sub-objects among the four fixed
keys (`{prefixStr}_last_0` … `{prefixStr}_last_3`). -/
def bulkEntries (fundamentals : JValue) (prefixStr : String) :
    List (String × JValue) :=
  let fin := jsGet fundamentals "Financials"
  (["Balance_Sheet", "Cash_Flow", "Income_Statement"].map fun stmt =>
    ((List.range 4).filterMap fun i =>
      let key := prefixStr ++ "_last_" ++ toString i
      let v := jsGet (jsGet fin stmt) key
      if jsTruthy v then some (key, v) else none)).flatten

/-- `StockFinancials.processBulkFinancialData`. -/
def processBulkFinancialData (ticker : String) (fundamentals : JValue) :
    Except JsError (List RecordJ × List RecordJ) := do
  if financialsEmpty fundamentals then
    throw .noFinancials
  else
    let qm ← buildMap ticker [] (bulkEntries fundamentals "quarterly")
    let am ← buildMap ticker [] (bulkEntries fundamentals "yearly")
    pure (qm.map Prod.snd, am.map Prod.snd)

/-- The per-payload step of the bulk loop body: skip payloads with no
`General.Code`, with an `ETF_Data` marker, or with empty financials;
a processing error is caught, logged and skipped (per-ticker isolation). -/
def bulkTickerStep (acc : List RecordJ × List RecordJ) (fundamentals : JValue) :
    List RecordJ × List RecordJ :=
  match jsGet (jsGet fundamentals "General") "Code" with
  | .jstr ticker =>
      if ticker = "" then acc
      else if jsTruthy (jsGet fundamentals "ETF_Data") then acc
      else if financialsEmpty fundamentals then acc
      else
        match processBulkFinancialData ticker fundamentals with
        | .ok (q, a) => (acc.1 ++ q, acc.2 ++ a)
        | .error _ => acc
  | _ => acc

/-- Normalization of one bulk response chunk: accumulate the surviving
tickers' records (`batchQuarterly`, `batchAnnual`). -/
def processChunk (bulkData : List JValue) : List RecordJ × List RecordJ :=
  bulkData.foldl bulkTickerStep ([], [])

/-! ## `StockFinancials` — schema inference -/

/-- The three identity fields every analytical schema starts from. -/
def requiredSchemaFields : List (String × String) :=
  [("ticker", "STRING"), ("symbol", "STRING"), ("date", "TIMESTAMP")]

/-- Whether a value is a native number (`typeof value === "number"`). -/
def isNumberV : JValue → Bool
  | .jnum _ => true
  | _ => false

/-- The `numericFields` set after scanning one record (a JS `Set`
preserves insertion order, modelled as a duplicate-free list). -/
def numericKeysStep (s : List String) (r : RecordJ) : List String :=
  r.foldl
    (fun s' p =>
      if p.1 = "ticker" ∨ p.1 = "symbol" ∨ p.1 = "date" then s'
      else if isNumberV p.2 then (if p.1 ∈ s' then s' else s' ++ [p.1])
      else s')
    s

/-- The `numericFields` set after scanning the whole batch. -/
def numericKeys (data : List RecordJ) : List String :=
  data.foldl numericKeysStep []

/-- `StockFinancials.generateBigQuerySchema`. -/
def generateBigQuerySchema (data : List RecordJ) : List (String × String) :=
  requiredSchemaFields ++ (numericKeys data).map (fun n => (n, "FLOAT64"))

/-- `StockFinancials.filterRecordForBQ`: keep only the keys the schema
names. -/
def filterRecordForBQ (record : RecordJ) (schema : List (String × String)) :
    RecordJ :=
  record.foldl
    (fun acc p =>
      if p.1 ∈ schema.map Prod.fst then setField acc p.1 p.2 else acc)
    []

/-! ## `StockFinancials.updateDatabaseAndBQ` — dual-sink writer

The two sinks are external; their call outcomes are supplied by a
`WriteEnv` (`true` = that call throws), and the function is modelled as
the trace of external calls it attempts together with its own outcome. -/

/-- The external calls `updateDatabaseAndBQ` can attempt.  The three
BigQuery stages abstract `createQuarterlyTable`/`createAnnualTable`,
`insertFinancialsToTempTable` and `mergeTempTableToMainTable`. -/
inductive WStep where
  | mongoQ : WStep
  | mongoA : WStep
  | bqCreateQ : WStep
  | bqInsertQ : WStep
  | bqMergeQ : WStep
  | bqCreateA : WStep
  | bqInsertA : WStep
  | bqMergeA : WStep
deriving Repr, DecidableEq

/-- Which external calls fail when attempted. -/
structure WriteEnv where
  mongoQFails : Bool
  mongoAFails : Bool
  bqCreateQFails : Bool
  bqInsertQFails : Bool
  bqMergeQFails : Bool
  bqCreateAFails : Bool
  bqInsertAFails : Bool
  bqMergeAFails : Bool
deriving Repr

/-- The quarterly half of the BigQuery `try` block: the calls attempted
and whether one of them threw. -/
def bqQuarterlyPhase (env : WriteEnv) : List WStep × Bool :=
  if env.bqCreateQFails then ([.bqCreateQ], true)
  else if env.bqInsertQFails then ([.bqCreateQ, .bqInsertQ], true)
  else if env.bqMergeQFails then ([.bqCreateQ, .bqInsertQ, .bqMergeQ], true)
  else ([.bqCreateQ, .bqInsertQ, .bqMergeQ], false)

/-- The annual half of the BigQuery `try` block. -/
def bqAnnualPhase (env : WriteEnv) : List WStep × Bool :=
  if env.bqCreateAFails then ([.bqCreateA], true)
  else if env.bqInsertAFails then ([.bqCreateA, .bqInsertA], true)
  else if env.bqMergeAFails then ([.bqCreateA, .bqInsertA, .bqMergeA], true)
  else ([.bqCreateA, .bqInsertA, .bqMergeA], false)

/-- The whole BigQuery `try` block (step 2 of `updateDatabaseAndBQ`):
the quarterly stage runs when `quarterly` is nonempty; a throw inside it
skips the annual stage; the surrounding `catch` logs and swallows. -/
def bqPhase (env : WriteEnv) (quarterly annual : List RecordJ) : List WStep :=
  if quarterly.isEmpty then
    (if annual.isEmpty then [] else (bqAnnualPhase env).1)
  else if (bqQuarterlyPhase env).2 then (bqQuarterlyPhase env).1
  else (bqQuarterlyPhase env).1
    ++ (if annual.isEmpty then [] else (bqAnnualPhase env).1)

/-- `StockFinancials.updateDatabaseAndBQ`: the MongoDB bulk writes (not
wrapped in any `try`), then the BigQuery block whose failures are caught
and only logged. -/
def updateDatabaseAndBQ (env : WriteEnv) (quarterly annual : List RecordJ) :
    List WStep × Except JsError Unit :=
  if ¬ quarterly.isEmpty ∧ env.mongoQFails then
    ([.mongoQ], .error .writeError)
  else
    let t1 : List WStep := if quarterly.isEmpty then [] else [.mongoQ]
    if ¬ annual.isEmpty ∧ env.mongoAFails then
      (t1 ++ [.mongoA], .error .writeError)
    else
      let t2 := t1 ++ (if annual.isEmpty then [] else [.mongoA])
      (t2 ++ bqPhase env quarterly annual, .ok ())

/-- `StockFinancials.downloadFinancials` (single-ticker path):
`fetchFinancials` then `updateDatabaseAndBQ`; fetch errors propagate to
the caller. -/
def downloadFinancials (env : WriteEnv) (ticker : String)
    (fundamentals : JValue) :
    List WStep × Except JsError (List RecordJ × List RecordJ) :=
  match fetchFinancials ticker fundamentals with
  | .error e => ([], .error e)
  | .ok (q, a) =>
      let (trace, res) := updateDatabaseAndBQ env q a
      (trace, res.map fun _ => (q, a))

/-! ## `StockFinancials.downloadFinancialsForTickerList` — chunking

For the chunking/pacing claim the loop body is abstracted to its two
provider-facing effects: the bulk fetch call for the chunk and the
pacing delay. -/

/-- The provider-facing events of the bulk loop. -/
inductive BulkEvent where
  | fetch : List String → BulkEvent
  | delay : BulkEvent
deriving Repr, DecidableEq

/-- The successive `tickers.slice(i, i + 500)` chunks. -/
def chunksOf500 (l : List String) : List (List String) :=
  if l.isEmpty then []
  else l.take 500 :: chunksOf500 (l.drop 500)
termination_by l.length
decreasing_by
  simp only [List.length_drop]
  cases l with
  | nil => simp_all
  | cons x xs => simp; omega

/-- `Math.ceil(tickers.length / batchSize)` with `batchSize = 500`. -/
def totalBatches (n : Nat) : Nat := (n + 499) / 500

/-- The loop of `downloadFinancialsForTickerList`: fetch the current
chunk, insert the pacing delay when `currentBatch < totalBatches`,
continue with the rest. -/
def bulkLoop (rest : List String) (currentBatch total : Nat) :
    List BulkEvent :=
  if rest.isEmpty then []
  else
    BulkEvent.fetch (rest.take 500)
      :: ((if currentBatch < total then [BulkEvent.delay] else [])
          ++ bulkLoop (rest.drop 500) (currentBatch + 1) total)
termination_by rest.length
decreasing_by
  simp only [List.length_drop]
  cases rest with
  | nil => simp_all
  | cons x xs => simp; omega

/-- The provider-facing event sequence of
`downloadFinancialsForTickerList` over a ticker list. -/
def tickerListEvents (tickers : List String) : List BulkEvent :=
  bulkLoop tickers 1 (totalBatches tickers.length)

/-- The chunk lengths as a function of the input length alone. -/
def chunkLens (n : Nat) : List Nat :=
  if n = 0 then [] else min 500 n :: chunkLens (n - 500)
termination_by n
decreasing_by omega

/-! ## `FinancialsDataManager` (bigQuery.ts) -/

/-- `FinancialsDataManager.filterNumericFields`'s numeric test and
coercion: `Number(value)`, with `none` standing for `NaN`.  (Numeric
string literals are modelled as integer strings; `Number` on an array
or a native `NaN` is outside this embedding.) -/
def jsToNumber : JValue → Option Int
  | .jnum n => some n
  | .jnull => some 0
  | .jbool b => some (if b then 1 else 0)
  | .jsUndefined => none
  | .jstr s => if s.toList.all (· = ' ') then some 0 else
      match s.toList with
      | '-' :: rest => (digitsToNat? rest).map fun n => -(n : Int)
      | cs => (digitsToNat? cs).map fun n => (n : Int)
  | .jdate d => d.map (· * 1000)
  | .jobj _ => none

/-- One `forEach` iteration of `filterNumericFields`: copy identity
fields through; otherwise keep the field iff `Number(value)` is not
`NaN`, storing the coerced number. -/
def numericFilterStep (acc : RecordJ) (p : String × JValue) : RecordJ :=
  if p.1 = "ticker" ∨ p.1 = "symbol" ∨ p.1 = "date" then
    setField acc p.1 p.2
  else
    match jsToNumber p.2 with
    | some n => setField acc p.1 (.jnum n)
    | none => acc

/-- `FinancialsDataManager.filterNumericFields`: pass the identity
fields through unchanged; keep any other field whose value is a native
number or whose `Number(value)` is not `NaN`, coerced via `Number`. -/
def filterNumericFields (data : RecordJ) : RecordJ :=
  data.foldl numericFilterStep []

/-- Environment of one `mergeTempTableToMainTable` call: the rows the
sampling query returns (`none` = the query itself throws), and whether
the merge query and the drop query throw. -/
structure MergeEnv where
  sampleRows : Option (List RecordJ)
  mergeFails : Bool
  dropFails : Bool
deriving Repr

/-- The queries `mergeTempTableToMainTable` can issue. -/
inductive MStep where
  | sampleQuery : MStep
  | mergeQuery : List String → MStep
  | dropQuery : MStep
deriving Repr, DecidableEq

/-- `Object.keys(sampleRow[0] || {})`: the merge column list, derived
from the first sampled row only. -/
def columnsFromSample (rows : List RecordJ) : List String :=
  (rows.headD []).map Prod.fst

/-- `FinancialsDataManager.mergeTempTableToMainTable`: sample one row,
build the MERGE statement from its keys, run it; the `catch` logs and
re-throws, the `finally` always attempts the drop and swallows a drop
failure. -/
def mergeTempTableToMainTable (env : MergeEnv) :
    List MStep × Except JsError Unit :=
  match env.sampleRows with
  | none => ([.sampleQuery, .dropQuery], .error .writeError)
  | some rows =>
      let cols := columnsFromSample rows
      if env.mergeFails then
        ([.sampleQuery, .mergeQuery cols, .dropQuery], .error .writeError)
      else
        ([.sampleQuery, .mergeQuery cols, .dropQuery], .ok ())

/-! ## Concrete payloads used as witnesses and counterexamples -/

/-- A single-ticker payload with one quarterly Balance_Sheet entry dated
`2023-06-30` and no filing date (the end-to-end scenario of the spec). -/
def msftPayload : JValue :=
  .jobj [("Financials", .jobj
    [("Balance_Sheet", .jobj
      [("quarterly", .jobj
        [("2023-06-30", .jobj [("totalAssets", .jnum 100)])])])])]

/-- The record `fetchFinancials "MSFT" msftPayload` normalizes to. -/
def msftExpected : RecordJ :=
  [("totalAssets", .jnum 100),
   ("ticker", .jstr "MSFT"),
   ("symbol", .jstr "MSFT"),
   ("date", .jdate (some 1688155200)),
   ("filing_date", .jsUndefined)]

/-- A single-ticker payload with overlapping Balance_Sheet and
Cash_Flow fragments for the same period. -/
def overlapPayload : JValue :=
  .jobj [("Financials", .jobj
    [("Balance_Sheet", .jobj
      [("quarterly", .jobj
        [("2023-06-30", .jobj [("commonField", .jnum 1), ("bsOnly", .jnum 5)])])]),
     ("Cash_Flow", .jobj
      [("quarterly", .jobj
        [("2023-06-30", .jobj [("commonField", .jnum 2), ("cfOnly", .jnum 3)])])])])]

/-- An ETF payload: `ETF_Data` marker present, no financials section. -/
def etfPayload : JValue :=
  .jobj [("General", .jobj [("Code", .jstr "SPY")]),
         ("ETF_Data", .jobj [("Holdings", .jobj [])])]

/-- A bulk-path payload whose `quarterly_last_0` entry carries a filing
date but whose `quarterly_last_1` entry does not — the latter can only
be dated from its dictionary key, which is not a date. -/
def undateablePayload : JValue :=
  .jobj [("General", .jobj [("Code", .jstr "ACME")]),
         ("Financials", .jobj
           [("Balance_Sheet", .jobj
             [("quarterly_last_0", .jobj
               [("filing_date", .jstr "2023-06-30"), ("totalAssets", .jnum 7)]),
              ("quarterly_last_1", .jobj [("totalAssets", .jnum 8)])])])]

/-- A dateable bulk-path payload (every entry carries a filing date). -/
def dateableBulkPayload : JValue :=
  .jobj [("General", .jobj [("Code", .jstr "GOOD")]),
         ("Financials", .jobj
           [("Cash_Flow", .jobj
             [("quarterly_last_0", .jobj
               [("filing_date", .jstr "2024-02-15"), ("freeCashFlow", .jnum 42)])])])]

/-! ## Derived notions used to state the claims -/

/-- The canonical merge key a normalized record is stored under: the ISO
rendering of its `date` field (`none` when the date is invalid — where
the source would throw). -/
def dateKeyOf (r : RecordJ) : Option String :=
  match getFieldOpt r "date" with
  | some (.jdate d) => (toIso d).toOption
  | _ => none

/-- The processed fragments of an entry list that resolve to canonical
date key `k`, in processing order. -/
def recsFor (ticker : String) (entries : List (String × JValue)) (k : String) :
    List RecordJ :=
  entries.filterMap fun e =>
    let r := processFinancialData ticker e.1 e.2
    if dateKeyOf r = some k then some r else none

/-- The value the *last* pair with the given key contributes to an
object literal (spread semantics: the latest assignment wins). -/
def lastVal : List (String × JValue) → String → Option JValue
  | [], _ => none
  | p :: rest, f =>
      match lastVal rest f with
      | some v => some v
      | none => if p.1 = f then some p.2 else none

/-- The value of field `f` contributed by the last fragment that has it
(shallow-merge semantics across a fragment list). -/
def lastFieldVal : List RecordJ → String → Option JValue
  | [], _ => none
  | r :: rest, f =>
      match lastFieldVal rest f with
      | some v => some v
      | none => getFieldOpt r f

/-- Folding shallow merges of a fragment list onto an optional existing
record (the accumulator shape of repeated `mergeRecord` calls at one
key). -/
def mergeFold (rs : List RecordJ) (init : Option RecordJ) : Option RecordJ :=
  rs.foldl (fun acc r => some (spread (acc.getD []) r)) init

/-- Whether a field name is observed with a native-number value in at
least one record of a batch. -/
def observedNumeric (data : List RecordJ) (n : String) : Bool :=
  data.any fun r => r.any fun p => p.1 == n && isNumberV p.2

/-- The spec's schema-inference example batch: `revenue` is a native
number in the first record and a non-numeric string in the second. -/
def schemaBatch0 : List RecordJ :=
  [[("ticker", .jstr "A"), ("symbol", .jstr "A"),
    ("date", .jdate (some 0)), ("revenue", .jnum 100)],
   [("ticker", .jstr "A"), ("symbol", .jstr "A"),
    ("date", .jdate (some 86400)), ("revenue", .jstr "n/a")]]

/-- The Balance_Sheet fragment of `overlapPayload`, processed. -/
def overlapBsRec : RecordJ :=
  [("commonField", .jnum 1), ("bsOnly", .jnum 5),
   ("ticker", .jstr "T"), ("symbol", .jstr "T"),
   ("date", .jdate (some 1688155200)), ("filing_date", .jsUndefined)]

/-- The Cash_Flow fragment of `overlapPayload`, processed. -/
def overlapCfRec : RecordJ :=
  [("commonField", .jnum 2), ("cfOnly", .jnum 3),
   ("ticker", .jstr "T"), ("symbol", .jstr "T"),
   ("date", .jdate (some 1688155200)), ("filing_date", .jsUndefined)]

/-- The merged record `fetchFinancials` emits for `overlapPayload`. -/
def overlapMergedRec : RecordJ :=
  [("commonField", .jnum 2), ("bsOnly", .jnum 5),
   ("ticker", .jstr "T"), ("symbol", .jstr "T"),
   ("date", .jdate (some 1688155200)), ("filing_date", .jsUndefined),
   ("cfOnly", .jnum 3)]

/-! ## Record-level lemmas -/

theorem getFieldOpt_setField (r : RecordJ) (k k' : String) (v : JValue) :
    getFieldOpt (setField r k v) k' =
      if k = k' then some v else getFieldOpt r k' := by
  induction r with
  | nil =>
      by_cases h : k = k' <;> simp [setField, getFieldOpt, lookupPair, h]
  | cons p rest ih =>
      obtain ⟨a, b⟩ := p
      by_cases hak : a = k
      · subst hak
        by_cases h : a = k' <;>
          simp [setField, getFieldOpt, lookupPair, h]
      · by_cases h : a = k'
        · subst h
          have hk : k ≠ a := fun hh => hak hh.symm
          simp [setField, getFieldOpt, lookupPair, hak, hk]
        · simpa [setField, getFieldOpt, lookupPair, hak, h] using ih

theorem keys_setField (r : RecordJ) (k : String) (v : JValue) :
    (setField r k v).map Prod.fst =
      if k ∈ r.map Prod.fst then r.map Prod.fst
      else r.map Prod.fst ++ [k] := by
  induction r with
  | nil => simp [setField]
  | cons p rest ih =>
      obtain ⟨a, b⟩ := p
      by_cases hak : a = k
      · subst hak; simp [setField]
      · have : ¬ k = a := fun hh => hak hh.symm
        by_cases hmem : k ∈ rest.map Prod.fst <;>
          simp [setField, hak, this, hmem, ih]

theorem nodupKeys_setField (r : RecordJ) (k : String) (v : JValue)
    (h : (r.map Prod.fst).Nodup) : ((setField r k v).map Prod.fst).Nodup := by
  rw [keys_setField]
  by_cases hmem : k ∈ r.map Prod.fst
  · simpa [hmem] using h
  · simp only [hmem, if_false]
    refine List.Nodup.append h (List.nodup_singleton k) ?_
    intro a ha hk
    rw [List.mem_singleton] at hk
    exact hmem (hk ▸ ha)

theorem nodupKeys_spread (a b : RecordJ) (h : (a.map Prod.fst).Nodup) :
    ((spread a b).map Prod.fst).Nodup := by
  induction b generalizing a with
  | nil => simpa [spread] using h
  | cons p rest ih =>
      simpa [spread] using ih (setField a p.1 p.2) (nodupKeys_setField a p.1 p.2 h)

theorem nodupKeys_objLit (pairs : List (String × JValue)) :
    ((objLit pairs).map Prod.fst).Nodup :=
  nodupKeys_spread [] pairs List.nodup_nil

theorem getFieldOpt_spread (a b : RecordJ) (f : String) :
    getFieldOpt (spread a b) f =
      match lastVal b f with
      | some v => some v
      | none => getFieldOpt a f := by
  induction b generalizing a with
  | nil => simp [spread, lastVal]
  | cons p rest ih =>
      have hstep : spread a (p :: rest) = spread (setField a p.1 p.2) rest := by
        simp [spread]
      rw [hstep, ih]
      cases hv : lastVal rest f with
      | some v => simp [lastVal, hv]
      | none =>
          by_cases hpf : p.1 = f
          · simp [lastVal, hv, hpf, getFieldOpt_setField]
          · have : ¬ p.1 = f := hpf
            simp [lastVal, hv, this, getFieldOpt_setField]

theorem getFieldOpt_objLit (pairs : List (String × JValue)) (f : String) :
    getFieldOpt (objLit pairs) f = lastVal pairs f := by
  rw [objLit, getFieldOpt_spread]
  cases lastVal pairs f <;> simp [getFieldOpt, lookupPair]

theorem lastVal_append (a b : List (String × JValue)) (f : String) :
    lastVal (a ++ b) f =
      match lastVal b f with
      | some v => some v
      | none => lastVal a f := by
  induction a with
  | nil => cases hv : lastVal b f <;> simp [lastVal, hv]
  | cons p rest ih =>
      cases hv : lastVal b f with
      | some v => simp [lastVal, ih, hv]
      | none => simp [lastVal, ih, hv]

theorem lastVal_eq_none_of_not_mem (r : List (String × JValue)) (f : String)
    (h : f ∉ r.map Prod.fst) : lastVal r f = none := by
  induction r with
  | nil => simp [lastVal]
  | cons p rest ih =>
      have hp : ¬ p.1 = f := fun hh => h (by simp [hh])
      have hr : f ∉ rest.map Prod.fst := fun hh => h (by simp [hh])
      simp [lastVal, ih hr, hp]

theorem getFieldOpt_eq_none_of_not_mem (r : RecordJ) (f : String)
    (h : f ∉ r.map Prod.fst) : getFieldOpt r f = none := by
  induction r with
  | nil => simp [getFieldOpt, lookupPair]
  | cons p rest ih =>
      have hp : ¬ p.1 = f := fun hh => h (by simp [hh])
      have hr : f ∉ rest.map Prod.fst := fun hh => h (by simp [hh])
      simpa [getFieldOpt, lookupPair, hp] using ih hr

theorem lastVal_eq_getFieldOpt (r : RecordJ) (f : String)
    (h : (r.map Prod.fst).Nodup) : lastVal r f = getFieldOpt r f := by
  induction r with
  | nil => simp [lastVal, getFieldOpt, lookupPair]
  | cons p rest ih =>
      have hrest : (rest.map Prod.fst).Nodup := (List.nodup_cons.mp h).2
      have hnot : p.1 ∉ rest.map Prod.fst := (List.nodup_cons.mp h).1
      by_cases hpf : p.1 = f
      · subst hpf
        rw [lastVal, lastVal_eq_none_of_not_mem rest p.1 hnot]
        simp [getFieldOpt, lookupPair]
      · rw [lastVal, ih hrest]
        cases hg : getFieldOpt rest f with
        | none =>
            simp only [hg, hpf, if_false]
            have : lookupPair rest f = none := hg
            simp [getFieldOpt, lookupPair, hpf, this]
        | some v =>
            have : lookupPair rest f = some v := hg
            simp [getFieldOpt, lookupPair, hpf, this]

theorem getFieldOpt_spread_nodup (a b : RecordJ) (f : String)
    (h : (b.map Prod.fst).Nodup) :
    getFieldOpt (spread a b) f =
      match getFieldOpt b f with
      | some v => some v
      | none => getFieldOpt a f := by
  rw [getFieldOpt_spread, lastVal_eq_getFieldOpt b f h]

/-! ## Map-level lemmas -/

theorem mapGet_mapSet (m : JMap) (k k' : String) (v : RecordJ) :
    mapGet (mapSet m k v) k' =
      if k = k' then some v else mapGet m k' := by
  induction m with
  | nil =>
      by_cases h : k = k' <;> simp [mapSet, mapGet, h]
  | cons p rest ih =>
      obtain ⟨a, b⟩ := p
      by_cases hak : a = k
      · subst hak
        by_cases h : a = k' <;> simp [mapSet, mapGet, h]
      · by_cases h : a = k'
        · subst h
          have hk : ¬ k = a := fun hh => hak hh.symm
          simp [mapSet, mapGet, hak, hk]
        · simpa [mapSet, mapGet, hak, h] using ih

theorem keys_mapSet (m : JMap) (k : String) (v : RecordJ) :
    (mapSet m k v).map Prod.fst =
      if k ∈ m.map Prod.fst then m.map Prod.fst
      else m.map Prod.fst ++ [k] := by
  induction m with
  | nil => simp [mapSet]
  | cons p rest ih =>
      obtain ⟨a, b⟩ := p
      by_cases hak : a = k
      · subst hak; simp [mapSet]
      · have : ¬ k = a := fun hh => hak hh.symm
        by_cases hmem : k ∈ rest.map Prod.fst <;>
          simp [mapSet, hak, this, hmem, ih]

theorem nodupKeys_mapSet (m : JMap) (k : String) (v : RecordJ)
    (h : (m.map Prod.fst).Nodup) : ((mapSet m k v).map Prod.fst).Nodup := by
  rw [keys_mapSet]
  by_cases hmem : k ∈ m.map Prod.fst
  · simpa [hmem] using h
  · simp only [hmem, if_false]
    refine List.Nodup.append h (List.nodup_singleton k) ?_
    intro a ha hk
    rw [List.mem_singleton] at hk
    exact hmem (hk ▸ ha)

theorem mem_mapSet (m : JMap) (k : String) (v : RecordJ)
    (h : (m.map Prod.fst).Nodup) (p : String × RecordJ) :
    p ∈ mapSet m k v ↔ p = (k, v) ∨ (p ∈ m ∧ p.1 ≠ k) := by
  induction m with
  | nil =>
      constructor
      · intro hp; left; simpa [mapSet] using hp
      · intro hp
        rcases hp with hp | ⟨hp, _⟩
        · simp [mapSet, hp]
        · simp at hp
  | cons q rest ih =>
      obtain ⟨a, b⟩ := q
      have hrest : (rest.map Prod.fst).Nodup := (List.nodup_cons.mp h).2
      have hnot : a ∉ rest.map Prod.fst := (List.nodup_cons.mp h).1
      by_cases hak : a = k
      · have hms : mapSet ((a, b) :: rest) k v = (k, v) :: rest := by
          simp [mapSet, hak]
        rw [hms, List.mem_cons, List.mem_cons]
        constructor
        · rintro (hp | hp)
          · left; exact hp
          · right
            refine ⟨Or.inr hp, ?_⟩
            intro hfst
            rw [← hak] at hfst
            exact hnot (hfst ▸ List.mem_map_of_mem Prod.fst hp)
        · rintro (hp | ⟨hp | hp, hne⟩)
          · left; exact hp
          · exfalso
            apply hne
            rw [hp, hak]
          · right; exact hp
      · have hms : mapSet ((a, b) :: rest) k v = (a, b) :: mapSet rest k v := by
          simp [mapSet, hak]
        rw [hms, List.mem_cons, List.mem_cons, ih hrest]
        constructor
        · rintro (hp | hp | ⟨hp, hne⟩)
          · right
            refine ⟨Or.inl hp, ?_⟩
            intro hfst
            rw [hp] at hfst
            exact hak hfst
          · left; exact hp
          · right; exact ⟨Or.inr hp, hne⟩
        · rintro (hp | ⟨hp | hp, hne⟩)
          · right; left; exact hp
          · left; exact hp
          · right; right; exact ⟨hp, hne⟩

theorem mapGet_of_mem (m : JMap) (p : String × RecordJ)
    (h : (m.map Prod.fst).Nodup) (hp : p ∈ m) :
    mapGet m p.1 = some p.2 := by
  induction m with
  | nil => simp at hp
  | cons q rest ih =>
      have hrest : (rest.map Prod.fst).Nodup := (List.nodup_cons.mp h).2
      have hnot : q.1 ∉ rest.map Prod.fst := (List.nodup_cons.mp h).1
      rcases List.mem_cons.mp hp with hp | hp
      · subst hp
        simp [mapGet]
      · have hne : ¬ q.1 = p.1 := by
          intro hh
          exact hnot (hh ▸ List.mem_map_of_mem Prod.fst hp)
        simpa [mapGet, hne] using ih hrest hp

theorem mem_of_mapGet (m : JMap) (k : String) (v : RecordJ)
    (h : mapGet m k = some v) : (k, v) ∈ m := by
  induction m with
  | nil => simp [mapGet] at h
  | cons q rest ih =>
      obtain ⟨a, b⟩ := q
      by_cases hq : a = k
      · rw [mapGet, if_pos hq] at h
        simp only [Option.some.injEq] at h
        subst hq; subst h
        exact List.mem_cons_self _ _
      · rw [mapGet, if_neg hq] at h
        exact List.mem_cons_of_mem _ (ih h)

theorem filter_key_eq_single (m : JMap) (k : String) (v : RecordJ)
    (h : (m.map Prod.fst).Nodup) (hget : mapGet m k = some v) :
    m.filter (fun p => p.1 == k) = [(k, v)] := by
  induction m with
  | nil => simp [mapGet] at hget
  | cons q rest ih =>
      obtain ⟨a, b⟩ := q
      have hrest : (rest.map Prod.fst).Nodup := (List.nodup_cons.mp h).2
      have hnot : a ∉ rest.map Prod.fst := by
        simpa using (List.nodup_cons.mp h).1
      by_cases hq : a = k
      · rw [mapGet, if_pos hq] at hget
        simp only [Option.some.injEq] at hget
        subst hq; subst hget
        have hfilter : rest.filter (fun p => p.1 == a) = [] := by
          apply List.filter_eq_nil_iff.mpr
          intro p hp
          simp only [beq_iff_eq]
          intro hh
          apply hnot
          rw [← hh]
          exact List.mem_map_of_mem Prod.fst hp
        simp [List.filter, hfilter]
      · rw [mapGet, if_neg hq] at hget
        have hbeq : (a == k) = false := by simpa using hq
        simp [List.filter, hbeq, ih hrest hget]

/-! ## Normalization lemmas -/

theorem isoString_ne_empty (t : Int) : isoString t ≠ "" := by
  intro h
  have hlen := congrArg String.length h
  rw [isoString, String.length_append] at hlen
  have h5 : (".000Z" : String).length = 5 := rfl
  have h0 : ("" : String).length = 0 := rfl
  rw [h5, h0] at hlen
  omega

theorem getFieldOpt_processFinancialData_date (t dk : String) (details : JValue) :
    getFieldOpt (processFinancialData t dk details) "date" =
      some (.jdate (getClose (chosenDateStr details dk))) := by
  rw [processFinancialData, getFieldOpt_objLit, lastVal_append]
  have htail : lastVal
      [("ticker", JValue.jstr t), ("symbol", JValue.jstr t),
       ("date", JValue.jdate (getClose (chosenDateStr details dk))),
       ("filing_date", JValue.jsUndefined)] "date" =
      some (.jdate (getClose (chosenDateStr details dk))) := by
    simp [lastVal]
  rw [htail]

theorem nodupKeys_processFinancialData (t dk : String) (details : JValue) :
    ((processFinancialData t dk details).map Prod.fst).Nodup :=
  nodupKeys_objLit _

theorem recordKey_processFinancialData (t dk : String) (details : JValue) :
    recordKey (processFinancialData t dk details) =
      toIso (getClose (chosenDateStr details dk)) := by
  rw [recordKey, getFieldOpt_processFinancialData_date]

theorem dateKeyOf_processFinancialData (t dk : String) (details : JValue) :
    dateKeyOf (processFinancialData t dk details) =
      (toIso (getClose (chosenDateStr details dk))).toOption := by
  rw [dateKeyOf, getFieldOpt_processFinancialData_date]

/-- The merged record at a key keeps the fragment's `date` field, hence
its canonical key. -/
theorem dateKeyOf_spread_record (existing r : RecordJ)
    (hnd : (r.map Prod.fst).Nodup) (d : Option Int)
    (hdate : getFieldOpt r "date" = some (.jdate d)) :
    dateKeyOf (spread existing r) = (toIso d).toOption := by
  rw [dateKeyOf, getFieldOpt_spread_nodup existing r "date" hnd, hdate]

/-- Inversion of one normalization step. -/
theorem normStep_ok_inv (t : String) (m m' : JMap) (e : String × JValue)
    (h : normStep t m e = .ok m') :
    ∃ key, toIso (getClose (chosenDateStr e.2 e.1)) = .ok key ∧
      m' = mergeRecord m (some key) (processFinancialData t e.1 e.2) := by
  rw [normStep] at h
  rw [recordKey_processFinancialData] at h
  cases hk : toIso (getClose (chosenDateStr e.2 e.1)) with
  | error err => rw [hk] at h; exact Except.noConfusion h
  | ok key =>
      rw [hk] at h
      refine ⟨key, rfl, ?_⟩
      have h2 : Except.ok (ε := JsError)
          (mergeRecord m (some key) (processFinancialData t e.1 e.2)) =
          Except.ok m' := h
      exact (Except.ok.inj h2).symm

theorem toIso_ok_ne_empty (d : Option Int) (key : String)
    (h : toIso d = .ok key) : key ≠ "" := by
  cases d with
  | none => simp [toIso] at h
  | some t =>
      rw [toIso] at h
      simp only [Except.ok.injEq] at h
      rw [← h]
      exact isoString_ne_empty t

/-- `buildMap` over a cons. -/
theorem buildMap_cons (t : String) (m0 : JMap) (e : String × JValue)
    (rest : List (String × JValue)) :
    buildMap t m0 (e :: rest) =
      (normStep t m0 e) >>= fun m1 => buildMap t m1 rest := rfl

/-- Key-set discipline: `buildMap` preserves duplicate-free map keys. -/
theorem buildMap_nodupKeys (t : String) (entries : List (String × JValue))
    (m0 m : JMap) (h0 : (m0.map Prod.fst).Nodup)
    (h : buildMap t m0 entries = .ok m) : (m.map Prod.fst).Nodup := by
  induction entries generalizing m0 with
  | nil =>
      rw [buildMap, List.foldlM_nil] at h
      cases h
      exact h0
  | cons e rest ih =>
      rw [buildMap_cons] at h
      cases hs : normStep t m0 e with
      | error err => rw [hs] at h; exact Except.noConfusion h
      | ok m1 =>
          rw [hs] at h
          obtain ⟨key, hkey, hm1⟩ := normStep_ok_inv t m0 m1 e hs
          have hne : key ≠ "" := toIso_ok_ne_empty _ _ hkey
          have h1 : (m1.map Prod.fst).Nodup := by
            rw [hm1, mergeRecord]
            rw [if_neg hne]
            exact nodupKeys_mapSet _ _ _ h0
          exact ih m1 h1 h

/-- Entry/value discipline: every map entry's value is keyed by its own
canonical date key. -/
theorem buildMap_entry_inv (t : String) (entries : List (String × JValue))
    (m0 m : JMap)
    (h0 : ∀ p ∈ m0, dateKeyOf p.2 = some p.1)
    (h : buildMap t m0 entries = .ok m)
    (hnd : (m0.map Prod.fst).Nodup) :
    ∀ p ∈ m, dateKeyOf p.2 = some p.1 := by
  induction entries generalizing m0 with
  | nil =>
      rw [buildMap, List.foldlM_nil] at h
      cases h
      exact h0
  | cons e rest ih =>
      rw [buildMap_cons] at h
      cases hs : normStep t m0 e with
      | error err => rw [hs] at h; exact Except.noConfusion h
      | ok m1 =>
          rw [hs] at h
          obtain ⟨key, hkey, hm1⟩ := normStep_ok_inv t m0 m1 e hs
          have hne : key ≠ "" := toIso_ok_ne_empty _ _ hkey
          have hnd1 : (m1.map Prod.fst).Nodup := by
            rw [hm1, mergeRecord, if_neg hne]
            exact nodupKeys_mapSet _ _ _ hnd
          refine ih m1 ?_ h hnd1
          intro p hp
          rw [hm1, mergeRecord, if_neg hne] at hp
          rcases (mem_mapSet m0 key _ hnd p).mp hp with hp | ⟨hp, _⟩
          · rw [hp]
            have hdate := getFieldOpt_processFinancialData_date t e.1 e.2
            have hclose : getClose (chosenDateStr e.2 e.1) =
                (getClose (chosenDateStr e.2 e.1)) := rfl
            rw [dateKeyOf_spread_record _ _
              (nodupKeys_processFinancialData t e.1 e.2) _ hdate]
            rw [hkey]
            rfl
          · exact h0 p hp

/-- `recsFor` over a cons. -/
theorem recsFor_cons (t : String) (e : String × JValue)
    (rest : List (String × JValue)) (k : String) :
    recsFor t (e :: rest) k =
      if dateKeyOf (processFinancialData t e.1 e.2) = some k then
        processFinancialData t e.1 e.2 :: recsFor t rest k
      else recsFor t rest k := by
  rw [recsFor, List.filterMap_cons, recsFor]
  by_cases hh : dateKeyOf (processFinancialData t e.1 e.2) = some k <;>
    simp [hh]

/-- The central accumulator characterization: after a successful
`buildMap` run, the value stored at any key is the shallow-merge fold of
exactly the fragments that resolve to that key, over whatever the
accumulator already held. -/
theorem buildMap_mapGet (t : String) (entries : List (String × JValue))
    (m0 m : JMap) (k : String)
    (h : buildMap t m0 entries = .ok m) (hk : k ≠ "") :
    mapGet m k = mergeFold (recsFor t entries k) (mapGet m0 k) := by
  induction entries generalizing m0 with
  | nil =>
      rw [buildMap, List.foldlM_nil] at h
      cases h
      simp [recsFor, mergeFold]
  | cons e rest ih =>
      rw [buildMap_cons] at h
      cases hs : normStep t m0 e with
      | error err => rw [hs] at h; exact Except.noConfusion h
      | ok m1 =>
          rw [hs] at h
          obtain ⟨key, hkey, hm1⟩ := normStep_ok_inv t m0 m1 e hs
          have hne : key ≠ "" := toIso_ok_ne_empty _ _ hkey
          have hdk : dateKeyOf (processFinancialData t e.1 e.2) = some key := by
            rw [dateKeyOf_processFinancialData, hkey]
            rfl
          rw [recsFor_cons, hdk]
          by_cases hkk : key = k
          · subst hkk
            rw [if_pos rfl]
            have hget1 : mapGet m1 key =
                some (spread ((mapGet m0 key).getD []) (processFinancialData t e.1 e.2)) := by
              rw [hm1, mergeRecord, if_neg hne, mapGet_mapSet, if_pos rfl]
            rw [ih m1 h, hget1]
            rw [mergeFold, mergeFold, List.foldl_cons]
          · have hcond : ¬ some key = some k := by
              intro hh
              exact hkk (Option.some.inj hh)
            rw [if_neg hcond]
            have hget1 : mapGet m1 k = mapGet m0 k := by
              rw [hm1, mergeRecord, if_neg hne, mapGet_mapSet, if_neg hkk]
            rw [ih m1 h, hget1]

/-- Inversion of a successful `fetchFinancials` run. -/
theorem fetchFinancials_ok_inv (t : String) (fo : JValue)
    (q a : List RecordJ) (h : fetchFinancials t fo = .ok (q, a)) :
    ∃ qm am, buildMap t [] (quarterlyEntries fo) = .ok qm ∧
      buildMap t [] (yearlyEntries fo) = .ok am ∧
      q = qm.map Prod.snd ∧ a = am.map Prod.snd := by
  rw [fetchFinancials] at h
  by_cases h1 : jsTruthy fo
  · rw [if_neg (by simpa using h1)] at h
    by_cases h2 : jsTruthy (jsGet fo "ETF_Data")
    · rw [if_pos h2] at h
      exact Except.noConfusion h
    · rw [if_neg h2] at h
      by_cases h3 : financialsEmpty fo
      · rw [if_pos h3] at h
        exact Except.noConfusion h
      · rw [if_neg h3] at h
        cases hq : buildMap t [] (quarterlyEntries fo) with
        | error err => rw [hq] at h; exact Except.noConfusion h
        | ok qm =>
            rw [hq] at h
            cases ha : buildMap t [] (yearlyEntries fo) with
            | error err =>
                rw [ha] at h
                exact Except.noConfusion h
            | ok am =>
                rw [ha] at h
                have h4 : Except.ok (ε := JsError)
                    (qm.map Prod.snd, am.map Prod.snd) = Except.ok (q, a) := h
                have h5 := Except.ok.inj h4
                refine ⟨qm, am, rfl, rfl, ?_, ?_⟩
                · exact (congrArg Prod.fst h5).symm
                · exact (congrArg Prod.snd h5).symm
  · rw [if_pos (by simpa using h1)] at h
    exact Except.noConfusion h

theorem mergeFold_some (rs : List RecordJ) (acc : RecordJ) :
    mergeFold rs (some acc) = some (rs.foldl spread acc) := by
  induction rs generalizing acc with
  | nil => simp [mergeFold]
  | cons r rest ih =>
      rw [mergeFold, List.foldl_cons, List.foldl_cons]
      have : (some acc).getD [] = acc := rfl
      rw [this]
      exact ih (spread acc r)

theorem mergeFold_ne_nil (rs : List RecordJ) (h : rs ≠ []) :
    mergeFold rs none = some (rs.foldl spread []) := by
  cases rs with
  | nil => exact absurd rfl h
  | cons r rest =>
      rw [mergeFold, List.foldl_cons, List.foldl_cons]
      have h1 : (none : Option RecordJ).getD [] = [] := rfl
      rw [h1]
      exact mergeFold_some rest (spread [] r)

theorem getFieldOpt_foldl_spread (rs : List RecordJ) (acc : RecordJ)
    (f : String) (hnd : ∀ r ∈ rs, (r.map Prod.fst).Nodup) :
    getFieldOpt (rs.foldl spread acc) f =
      match lastFieldVal rs f with
      | some v => some v
      | none => getFieldOpt acc f := by
  induction rs generalizing acc with
  | nil => simp [lastFieldVal]
  | cons r rest ih =>
      rw [List.foldl_cons]
      have hr : (r.map Prod.fst).Nodup := hnd r (List.mem_cons_self r rest)
      have hrest : ∀ x ∈ rest, (x.map Prod.fst).Nodup :=
        fun x hx => hnd x (List.mem_cons_of_mem r hx)
      rw [ih (spread acc r) hrest]
      cases hv : lastFieldVal rest f with
      | some v => simp [lastFieldVal, hv]
      | none =>
          rw [getFieldOpt_spread_nodup acc r f hr]
          cases hg : getFieldOpt r f <;> simp [lastFieldVal, hv, hg]

theorem lastFieldVal_isSome (rs : List RecordJ) (f : String) :
    (lastFieldVal rs f).isSome = true ↔
      ∃ r, r ∈ rs ∧ (getFieldOpt r f).isSome = true := by
  induction rs with
  | nil => simp [lastFieldVal]
  | cons r rest ih =>
      cases hv : lastFieldVal rest f with
      | some v =>
          simp only [lastFieldVal, hv, Option.isSome_some, true_iff]
          obtain ⟨x, hx, hxs⟩ := ih.mp (by rw [hv]; rfl)
          exact ⟨x, List.mem_cons_of_mem r hx, hxs⟩
      | none =>
          simp only [lastFieldVal, hv]
          constructor
          · intro hs
            exact ⟨r, List.mem_cons_self r rest, hs⟩
          · rintro ⟨x, hx, hxs⟩
            rcases List.mem_cons.mp hx with hx | hx
            · rw [← hx]; exact hxs
            · exact absurd (ih.mpr ⟨x, hx, hxs⟩) (by rw [hv]; simp)

theorem recsFor_mem (t : String) (entries : List (String × JValue))
    (k : String) (r : RecordJ) (hr : r ∈ recsFor t entries k) :
    (∃ e, e ∈ entries ∧ r = processFinancialData t e.1 e.2) ∧
      dateKeyOf r = some k := by
  rw [recsFor] at hr
  obtain ⟨e, he, hre⟩ := List.mem_filterMap.mp hr
  by_cases hcond : dateKeyOf (processFinancialData t e.1 e.2) = some k
  · rw [if_pos hcond] at hre
    have hr2 := Option.some.inj hre
    exact ⟨⟨e, he, hr2.symm⟩, hr2 ▸ hcond⟩
  · rw [if_neg hcond] at hre
    exact Option.noConfusion hre

theorem recsFor_nodupKeys (t : String) (entries : List (String × JValue))
    (k : String) (r : RecordJ) (hr : r ∈ recsFor t entries k) :
    (r.map Prod.fst).Nodup := by
  obtain ⟨⟨e, _, hre⟩, _⟩ := recsFor_mem t entries k r hr
  rw [hre]
  exact nodupKeys_processFinancialData t e.1 e.2

theorem dateKeyOf_some_ne_empty (r : RecordJ) (k : String)
    (h : dateKeyOf r = some k) : k ≠ "" := by
  rw [dateKeyOf] at h
  cases hg : getFieldOpt r "date" with
  | none => rw [hg] at h; exact Option.noConfusion h
  | some v =>
      rw [hg] at h
      cases v with
      | jdate d =>
          cases d with
          | none => exact Option.noConfusion h
          | some time =>
              have : k = isoString time := (Option.some.inj h).symm
              rw [this]
              exact isoString_ne_empty time
      | jnull => exact Option.noConfusion h
      | jsUndefined => exact Option.noConfusion h
      | jbool b => exact Option.noConfusion h
      | jnum n => exact Option.noConfusion h
      | jstr s => exact Option.noConfusion h
      | jobj l => exact Option.noConfusion h

theorem filter_map_snd (m : List (String × RecordJ)) (p : RecordJ → Bool) :
    (m.map Prod.snd).filter p = (m.filter (fun pr => p pr.2)).map Prod.snd := by
  induction m with
  | nil => simp
  | cons q rest ih =>
      cases hp : p q.2 <;> simp [List.filter, hp, ih]

/-! ## The claims -/

/-- C1: for every ticker payload, when two or more statement fragments
(Balance_Sheet / Cash_Flow / Income_Statement entries) resolve to the
same canonical date key, the normalizer emits exactly one quarterly
record for that key; its field set is the union of the fragments' field
sets, and on every overlapping field the later-processed fragment's
value wins (the value of field `f` is the one contributed by the last
fragment carrying `f`). -/
theorem c1_merge_fragments_per_key
    (ticker : String) (fo : JValue) (q a : List RecordJ) (k : String)
    (h : fetchFinancials ticker fo = .ok (q, a))
    (hne : recsFor ticker (quarterlyEntries fo) k ≠ []) :
    (q.filter (fun r => dateKeyOf r == some k)).length = 1
    ∧ ∀ r, r ∈ q → dateKeyOf r = some k →
        (∀ f, getFieldOpt r f =
          lastFieldVal (recsFor ticker (quarterlyEntries fo) k) f)
        ∧ (∀ f, (getFieldOpt r f).isSome = true ↔
            ∃ fr, fr ∈ recsFor ticker (quarterlyEntries fo) k ∧
              (getFieldOpt fr f).isSome = true) := by
  obtain ⟨qm, am, hqm, ham, hq, ha⟩ := fetchFinancials_ok_inv ticker fo q a h
  obtain ⟨r0, hr0⟩ := List.exists_mem_of_ne_nil _ hne
  have hkne : k ≠ "" :=
    dateKeyOf_some_ne_empty r0 k (recsFor_mem _ _ _ _ hr0).2
  have hnodup : (qm.map Prod.fst).Nodup :=
    buildMap_nodupKeys ticker (quarterlyEntries fo) [] qm (by simp) hqm
  have hinv : ∀ p ∈ qm, dateKeyOf p.2 = some p.1 :=
    buildMap_entry_inv ticker (quarterlyEntries fo) [] qm
      (by intro p hp; simp at hp) hqm (by simp)
  have hget : mapGet qm k =
      mergeFold (recsFor ticker (quarterlyEntries fo) k) none := by
    have := buildMap_mapGet ticker (quarterlyEntries fo) [] qm k hqm hkne
    rw [this]
    rfl
  have hmerged : mapGet qm k =
      some ((recsFor ticker (quarterlyEntries fo) k).foldl spread []) := by
    rw [hget, mergeFold_ne_nil _ hne]
  have hfc : qm.filter (fun pr => dateKeyOf pr.2 == some k) =
      qm.filter (fun pr => pr.1 == k) := by
    apply List.filter_congr
    intro pr hpr
    rw [hinv pr hpr]
    by_cases hh : pr.1 = k
    · rw [hh, beq_self_eq_true, beq_self_eq_true]
    · rw [beq_eq_false_iff_ne.mpr hh,
        beq_eq_false_iff_ne.mpr (by simpa using hh)]
  have hsingle : qm.filter (fun pr => pr.1 == k) =
      [(k, (recsFor ticker (quarterlyEntries fo) k).foldl spread [])] :=
    filter_key_eq_single qm k _ hnodup hmerged
  have hqfilter : q.filter (fun r => dateKeyOf r == some k) =
      [(recsFor ticker (quarterlyEntries fo) k).foldl spread []] := by
    rw [hq, filter_map_snd, hfc, hsingle]
    rfl
  have hndrs : ∀ r ∈ recsFor ticker (quarterlyEntries fo) k,
      (r.map Prod.fst).Nodup :=
    fun r hr => recsFor_nodupKeys ticker (quarterlyEntries fo) k r hr
  have hfields : ∀ f,
      getFieldOpt ((recsFor ticker (quarterlyEntries fo) k).foldl spread []) f
        = lastFieldVal (recsFor ticker (quarterlyEntries fo) k) f := by
    intro f
    rw [getFieldOpt_foldl_spread _ [] f hndrs]
    cases hv : lastFieldVal (recsFor ticker (quarterlyEntries fo) k) f <;>
      simp [getFieldOpt, lookupPair]
  constructor
  · rw [hqfilter]
    rfl
  · intro r hr hrk
    have hrmem : r ∈ q.filter (fun r => dateKeyOf r == some k) :=
      List.mem_filter.mpr ⟨hr, by rw [hrk]; exact beq_self_eq_true _⟩
    rw [hqfilter, List.mem_singleton] at hrmem
    subst hrmem
    refine ⟨hfields, ?_⟩
    intro f
    rw [hfields f]
    exact lastFieldVal_isSome _ f

/-- Witness for C1 at a concrete payload: Balance_Sheet and Cash_Flow
quarterly fragments for 2023-06-30 share the field `commonField`; the
single emitted record takes the Cash_Flow (later) value. -/
theorem c1_merge_fragments_per_key_witness :
    (([overlapMergedRec] : List RecordJ).filter
      (fun r => dateKeyOf r == some "2023-06-30T20:00:00.000Z")).length = 1
    ∧ ∀ r, r ∈ ([overlapMergedRec] : List RecordJ) →
        dateKeyOf r = some "2023-06-30T20:00:00.000Z" →
        (∀ f, getFieldOpt r f =
          lastFieldVal
            (recsFor "T" (quarterlyEntries overlapPayload)
              "2023-06-30T20:00:00.000Z") f)
        ∧ (∀ f, (getFieldOpt r f).isSome = true ↔
            ∃ fr, fr ∈ recsFor "T" (quarterlyEntries overlapPayload)
                "2023-06-30T20:00:00.000Z" ∧
              (getFieldOpt fr f).isSome = true) := by
  apply c1_merge_fragments_per_key "T" overlapPayload [overlapMergedRec] []
    "2023-06-30T20:00:00.000Z"
  · rfl
  · intro hh
    rw [show recsFor "T" (quarterlyEntries overlapPayload)
        "2023-06-30T20:00:00.000Z" = [overlapBsRec, overlapCfRec] from rfl] at hh
    exact List.noConfusion hh

/-- The date string `getClose` receives when the entry has no truthy
filing date is the dictionary key. -/
theorem chosenDateStr_of_falsy (details : JValue) (dk : String)
    (h : jsTruthy (jsGet details "filing_date") = false) :
    chosenDateStr details dk = dk := by
  rw [chosenDateStr]
  cases hg : jsGet details "filing_date" with
  | jstr s =>
      rw [hg] at h
      rw [jsTruthy] at h
      simp only [decide_eq_false_iff_not, not_not] at h
      show (if s = "" then dk else s) = dk
      rw [if_pos h]
  | jnull => rfl
  | jsUndefined => rfl
  | jbool b => rfl
  | jnum n => rfl
  | jdate d => rfl
  | jobj l => rfl

/-- The date string `getClose` receives when the entry carries a
nonempty filing-date string is that string. -/
theorem chosenDateStr_of_filing (details : JValue) (dk fd : String)
    (h : jsGet details "filing_date" = .jstr fd) (hne : fd ≠ "") :
    chosenDateStr details dk = fd := by
  rw [chosenDateStr, h]
  show (if fd = "" then dk else fd) = fd
  rw [if_neg hne]

/-- C2: the canonical date of a period entry is the entry's filing-date
field when present (a nonempty date string), otherwise the period's
dictionary key, anchored to 16:00 America/New_York and converted to
UTC.  In particular a quarterly entry dated 2023-06-30 with no filing
date resolves to the instant 2023-06-30T20:00:00Z (epoch second
1688155200), and the record is keyed under exactly that instant. -/
theorem c2_canonical_date :
    (∀ (t dk : String) (details : JValue),
      jsTruthy (jsGet details "filing_date") = false →
      getFieldOpt (processFinancialData t dk details) "date" =
        some (.jdate (getClose dk)))
    ∧ (∀ (t dk : String) (details : JValue) (fd : String),
        jsGet details "filing_date" = .jstr fd → fd ≠ "" →
        getFieldOpt (processFinancialData t dk details) "date" =
          some (.jdate (getClose fd)))
    ∧ getClose "2023-06-30" = some 1688155200
    ∧ isoString 1688155200 = "2023-06-30T20:00:00.000Z"
    ∧ buildMap "MSFT" [] (quarterlyEntries msftPayload) =
        .ok [("2023-06-30T20:00:00.000Z", msftExpected)]
    ∧ fetchFinancials "MSFT" msftPayload = .ok ([msftExpected], []) := by
  refine ⟨?_, ?_, rfl, rfl, rfl, rfl⟩
  · intro t dk details h
    rw [getFieldOpt_processFinancialData_date, chosenDateStr_of_falsy details dk h]
  · intro t dk details fd h hne
    rw [getFieldOpt_processFinancialData_date,
      chosenDateStr_of_filing details dk fd h hne]

/-- Witness for C2: both date-selection rules applied at concrete
entries. -/
theorem c2_canonical_date_witness :
    getFieldOpt (processFinancialData "MSFT" "2023-06-30"
      (.jobj [("totalAssets", .jnum 100)])) "date" =
      some (.jdate (getClose "2023-06-30"))
    ∧ getFieldOpt (processFinancialData "X" "1999-01-01"
        (.jobj [("filing_date", .jstr "2023-06-30")])) "date" =
      some (.jdate (getClose "2023-06-30")) :=
  ⟨c2_canonical_date.1 "MSFT" "2023-06-30"
      (.jobj [("totalAssets", .jnum 100)]) rfl,
   c2_canonical_date.2.1 "X" "1999-01-01"
      (.jobj [("filing_date", .jstr "2023-06-30")]) "2023-06-30" rfl
      (by decide)⟩

/-- Membership in the numeric-field set after scanning one record. -/
theorem mem_numericKeysStep (r : RecordJ) (s : List String) (n : String) :
    n ∈ numericKeysStep s r ↔
      n ∈ s ∨ (¬(n = "ticker" ∨ n = "symbol" ∨ n = "date") ∧
        ∃ p, p ∈ r ∧ p.1 = n ∧ isNumberV p.2 = true) := by
  induction r generalizing s with
  | nil => simp [numericKeysStep]
  | cons p rest ih =>
      rw [show numericKeysStep s (p :: rest) = numericKeysStep
        (if p.1 = "ticker" ∨ p.1 = "symbol" ∨ p.1 = "date" then s
         else if isNumberV p.2 then (if p.1 ∈ s then s else s ++ [p.1]) else s)
        rest from rfl]
      rw [ih]
      by_cases hid : p.1 = "ticker" ∨ p.1 = "symbol" ∨ p.1 = "date"
      · rw [if_pos hid]
        constructor
        · rintro (hs | hc)
          · left; exact hs
          · right
            obtain ⟨hnid, p', hp', hrest⟩ := hc
            exact ⟨hnid, p', List.mem_cons_of_mem p hp', hrest⟩
        · rintro (hs | ⟨hnid, p', hp', hp1, hnum⟩)
          · left; exact hs
          · rcases List.mem_cons.mp hp' with hp' | hp'
            · exact absurd (hp' ▸ hp1 : p.1 = n) (fun hh => hnid (hh ▸ hid))
            · right; exact ⟨hnid, p', hp', hp1, hnum⟩
      · rw [if_neg hid]
        by_cases hnum : isNumberV p.2
        · rw [if_pos hnum]
          have hmem : ∀ x, x ∈ (if p.1 ∈ s then s else s ++ [p.1]) ↔
              x ∈ s ∨ x = p.1 := by
            intro x
            by_cases hps : p.1 ∈ s
            · rw [if_pos hps]
              constructor
              · exact Or.inl
              · rintro (hx | hx)
                · exact hx
                · exact hx ▸ hps
            · rw [if_neg hps]
              simp [List.mem_append]
          rw [hmem]
          constructor
          · rintro ((hs | hx) | hc)
            · left; exact hs
            · right
              refine ⟨fun hh => hid (hx ▸ hh), p, List.mem_cons_self p rest,
                hx.symm, hnum⟩
            · obtain ⟨hnid, p', hp', hrest⟩ := hc
              right
              exact ⟨hnid, p', List.mem_cons_of_mem p hp', hrest⟩
          · rintro (hs | ⟨hnid, p', hp', hp1, hnum'⟩)
            · left; left; exact hs
            · rcases List.mem_cons.mp hp' with hp' | hp'
              · left; right; rw [← hp1, hp']
              · right; exact ⟨hnid, p', hp', hp1, hnum'⟩
        · rw [if_neg hnum]
          constructor
          · rintro (hs | hc)
            · left; exact hs
            · obtain ⟨hnid, p', hp', hrest⟩ := hc
              right
              exact ⟨hnid, p', List.mem_cons_of_mem p hp', hrest⟩
          · rintro (hs | ⟨hnid, p', hp', hp1, hnum'⟩)
            · left; exact hs
            · rcases List.mem_cons.mp hp' with hp' | hp'
              · exact absurd (hp' ▸ hnum' : isNumberV p.2 = true) (by simpa using hnum)
              · right; exact ⟨hnid, p', hp', hp1, hnum'⟩

/-- Scanning a record preserves freedom from duplicates. -/
theorem nodup_numericKeysStep (r : RecordJ) (s : List String)
    (h : s.Nodup) : (numericKeysStep s r).Nodup := by
  induction r generalizing s with
  | nil => exact h
  | cons p rest ih =>
      rw [show numericKeysStep s (p :: rest) = numericKeysStep
        (if p.1 = "ticker" ∨ p.1 = "symbol" ∨ p.1 = "date" then s
         else if isNumberV p.2 then (if p.1 ∈ s then s else s ++ [p.1]) else s)
        rest from rfl]
      apply ih
      by_cases hid : p.1 = "ticker" ∨ p.1 = "symbol" ∨ p.1 = "date"
      · rw [if_pos hid]; exact h
      · rw [if_neg hid]
        by_cases hnum : isNumberV p.2
        · rw [if_pos hnum]
          by_cases hps : p.1 ∈ s
          · rw [if_pos hps]; exact h
          · rw [if_neg hps]
            refine List.Nodup.append h (List.nodup_singleton p.1) ?_
            intro x hx hx1
            rw [List.mem_singleton] at hx1
            exact hps (hx1 ▸ hx)
        · rw [if_neg hnum]; exact h

/-- Membership in the numeric-field set of a whole batch. -/
theorem mem_numericKeys (data : List RecordJ) (n : String) :
    n ∈ numericKeys data ↔
      ¬(n = "ticker" ∨ n = "symbol" ∨ n = "date") ∧
        observedNumeric data n = true := by
  have haux : ∀ (s : List String), n ∈ data.foldl numericKeysStep s ↔
      n ∈ s ∨ (¬(n = "ticker" ∨ n = "symbol" ∨ n = "date") ∧
        ∃ r, r ∈ data ∧ ∃ p, p ∈ r ∧ p.1 = n ∧ isNumberV p.2 = true) := by
    induction data with
    | nil => intro s; simp
    | cons r rest ih =>
        intro s
        rw [List.foldl_cons, ih, mem_numericKeysStep]
        constructor
        · rintro ((hs | ⟨hnid, p, hp, hrest⟩) | ⟨hnid, r', hr', hrest⟩)
          · left; exact hs
          · right; exact ⟨hnid, r, List.mem_cons_self r rest, p, hp, hrest⟩
          · right; exact ⟨hnid, r', List.mem_cons_of_mem r hr', hrest⟩
        · rintro (hs | ⟨hnid, r', hr', p, hp, hrest⟩)
          · left; left; exact hs
          · rcases List.mem_cons.mp hr' with hr' | hr'
            · left; right; exact ⟨hnid, p, hr' ▸ hp, hrest⟩
            · right; exact ⟨hnid, r', hr', p, hp, hrest⟩
  rw [numericKeys, haux]
  rw [observedNumeric]
  simp only [List.mem_nil_iff, false_or, List.any_eq_true, Bool.and_eq_true,
    beq_iff_eq]

/-- The numeric-field set of a batch is duplicate-free. -/
theorem nodup_numericKeys (data : List RecordJ) : (numericKeys data).Nodup := by
  have haux : ∀ (s : List String), s.Nodup →
      (data.foldl numericKeysStep s).Nodup := by
    induction data with
    | nil => intro s h; exact h
    | cons r rest ih =>
        intro s h
        rw [List.foldl_cons]
        exact ih _ (nodup_numericKeysStep r s h)
  exact haux [] List.nodup_nil

/-- Filtering a duplicate-free string list for one value. -/
theorem nodup_filter_beq (l : List String) (n : String) (h : l.Nodup) :
    l.filter (fun x => x == n) = if n ∈ l then [n] else [] := by
  induction l with
  | nil => simp
  | cons x rest ih =>
      have hrest : rest.Nodup := (List.nodup_cons.mp h).2
      have hnot : x ∉ rest := (List.nodup_cons.mp h).1
      by_cases hx : x = n
      · subst hx
        have : x ∉ rest := hnot
        rw [List.filter_cons]
        simp only [beq_self_eq_true, if_pos, List.mem_cons, true_or, if_true]
        rw [ih hrest, if_neg this]
      · rw [List.filter_cons]
        have hbeq : (x == n) = false := beq_eq_false_iff_ne.mpr hx
        rw [hbeq]
        simp only [Bool.false_eq_true, if_false]
        rw [ih hrest]
        by_cases hn : n ∈ rest
        · rw [if_pos hn, if_pos (List.mem_cons_of_mem x hn)]
        · rw [if_neg hn, if_neg (by
            intro hh
            rcases List.mem_cons.mp hh with hh | hh
            · exact hx hh.symm
            · exact hn hh)]

/-- Filtering a mapped pair list on the first component. -/
theorem filter_fst_map_pair (l : List String) (ty n : String) :
    (l.map (fun m => (m, ty))).filter (fun e => e.1 == n) =
      (l.filter (fun x => x == n)).map (fun m => (m, ty)) := by
  induction l with
  | nil => simp
  | cons x rest ih =>
      by_cases hx : x = n
      · subst hx
        simp only [List.map_cons, List.filter_cons, beq_self_eq_true, if_pos,
          List.map]
        rw [ih]
      · have hbeq : (x == n) = false := beq_eq_false_iff_ne.mpr hx
        simp only [List.map_cons, List.filter_cons, hbeq,
          Bool.false_eq_true, if_false]
        rw [ih]

/-- C3: the inferred analytical schema is `ticker:STRING`,
`symbol:STRING`, `date:TIMESTAMP`, plus exactly one `FLOAT64` entry for
each non-identity field observed with a native-number value somewhere
in the batch, and nothing else.  A field numeric in one record and
non-numeric in another appears exactly once; a field never observed as
a native number yields no entry. -/
theorem c3_schema_inference (data : List RecordJ) :
    generateBigQuerySchema data =
      requiredSchemaFields ++ (numericKeys data).map (fun n => (n, "FLOAT64"))
    ∧ ("ticker", "STRING") ∈ generateBigQuerySchema data
    ∧ ("symbol", "STRING") ∈ generateBigQuerySchema data
    ∧ ("date", "TIMESTAMP") ∈ generateBigQuerySchema data
    ∧ ∀ n : String, ¬(n = "ticker" ∨ n = "symbol" ∨ n = "date") →
        (generateBigQuerySchema data).filter (fun e => e.1 == n) =
          (if observedNumeric data n then [(n, "FLOAT64")] else []) := by
  refine ⟨rfl,
    by simp [generateBigQuerySchema, requiredSchemaFields],
    by simp [generateBigQuerySchema, requiredSchemaFields],
    by simp [generateBigQuerySchema, requiredSchemaFields], ?_⟩
  intro n hn
  have h1 : ("ticker" == n) = false :=
    beq_eq_false_iff_ne.mpr (fun h => hn (Or.inl h.symm))
  have h2 : ("symbol" == n) = false :=
    beq_eq_false_iff_ne.mpr (fun h => hn (Or.inr (Or.inl h.symm)))
  have h3 : ("date" == n) = false :=
    beq_eq_false_iff_ne.mpr (fun h => hn (Or.inr (Or.inr h.symm)))
  rw [generateBigQuerySchema, List.filter_append]
  have hreq : requiredSchemaFields.filter (fun e => e.1 == n) = [] := by
    simp [requiredSchemaFields, List.filter, h1, h2, h3]
  rw [hreq, List.nil_append, filter_fst_map_pair,
    nodup_filter_beq _ n (nodup_numericKeys data)]
  by_cases hobs : observedNumeric data n = true
  · rw [if_pos ((mem_numericKeys data n).mpr ⟨hn, hobs⟩), if_pos hobs]
    rfl
  · have hnotmem : n ∉ numericKeys data := by
      intro hh
      exact hobs ((mem_numericKeys data n).mp hh).2
    rw [if_neg hnotmem, if_neg hobs]
    rfl

/-- Witness for C3 at the spec's example batch: `revenue` (numeric in
one record, string in the other) appears exactly once, as `FLOAT64`. -/
theorem c3_schema_inference_witness :
    (generateBigQuerySchema schemaBatch0).filter (fun e => e.1 == "revenue") =
      (if observedNumeric schemaBatch0 "revenue"
        then [("revenue", "FLOAT64")] else []) :=
  (c3_schema_inference schemaBatch0).2.2.2.2 "revenue" (by decide)

/-- Unfolding of `chunksOf500` on a nonempty list. -/
theorem chunksOf500_cons (l : List String) (h : ¬ l.isEmpty) :
    chunksOf500 l = l.take 500 :: chunksOf500 (l.drop 500) := by
  rw [chunksOf500.eq_def, if_neg (by simpa using h)]

/-- `chunksOf500` of the empty list. -/
theorem chunksOf500_nil : chunksOf500 [] = [] := by
  rw [chunksOf500.eq_def]
  rfl

/-- The chunks concatenate back to the original list. -/
theorem chunksOf500_join (l : List String) : (chunksOf500 l).flatten = l := by
  by_cases h : l.isEmpty
  · rw [List.isEmpty_iff.mp h, chunksOf500_nil]
    rfl
  · rw [chunksOf500_cons l h, List.flatten_cons,
      chunksOf500_join (l.drop 500)]
    exact List.take_append_drop 500 l
termination_by l.length
decreasing_by
  simp only [List.length_drop]
  cases l with
  | nil => simp_all
  | cons x xs => simp; omega

/-- The number of chunks is `ceil(length / 500)`. -/
theorem chunksOf500_length (l : List String) :
    (chunksOf500 l).length = totalBatches l.length := by
  by_cases h : l.isEmpty
  · rw [List.isEmpty_iff.mp h, chunksOf500_nil]
    rfl
  · rw [chunksOf500_cons l h, List.length_cons,
      chunksOf500_length (l.drop 500)]
    have hpos : 1 ≤ l.length := by
      cases l with
      | nil => simp at h
      | cons x xs => simp
    rw [totalBatches, totalBatches, List.length_drop]
    omega
termination_by l.length
decreasing_by
  simp only [List.length_drop]
  cases l with
  | nil => simp_all
  | cons x xs => simp; omega

/-- Every chunk holds at most 500 tickers. -/
theorem chunksOf500_le (l : List String) :
    ∀ c ∈ chunksOf500 l, c.length ≤ 500 := by
  by_cases h : l.isEmpty
  · rw [List.isEmpty_iff.mp h, chunksOf500_nil]
    intro c hc
    simp at hc
  · rw [chunksOf500_cons l h]
    intro c hc
    rcases List.mem_cons.mp hc with hc | hc
    · rw [hc, List.length_take]
      exact min_le_left _ _
    · exact chunksOf500_le (l.drop 500) c hc
termination_by l.length
decreasing_by
  simp only [List.length_drop]
  cases l with
  | nil => simp_all
  | cons x xs => simp; omega

/-- The chunk lengths depend only on the input length. -/
theorem chunksOf500_map_length (l : List String) :
    (chunksOf500 l).map List.length = chunkLens l.length := by
  by_cases h : l.isEmpty
  · rw [List.isEmpty_iff.mp h, chunksOf500_nil]
    rw [chunkLens.eq_def]
    rfl
  · rw [chunksOf500_cons l h, List.map_cons,
      chunksOf500_map_length (l.drop 500)]
    have hpos : l.length ≠ 0 := by
      cases l with
      | nil => simp at h
      | cons x xs => simp
    conv_rhs => rw [chunkLens.eq_def]
    rw [if_neg hpos, List.length_take, List.length_drop]
termination_by l.length
decreasing_by
  simp only [List.length_drop]
  cases l with
  | nil => simp_all
  | cons x xs => simp; omega

/-- `chunksOf500` yields no chunk exactly on the empty list. -/
theorem chunksOf500_eq_nil_iff (l : List String) :
    chunksOf500 l = [] ↔ l = [] := by
  constructor
  · intro h
    by_cases he : l.isEmpty
    · exact List.isEmpty_iff.mp he
    · rw [chunksOf500_cons l he] at h
      exact List.noConfusion h
  · intro h
    rw [h, chunksOf500_nil]

/-- The bulk loop emits the chunk fetches interleaved with exactly one
pacing delay between consecutive chunks. -/
theorem bulkLoop_intersperse (rest : List String) (c total : Nat)
    (ht : total + 1 = c + (chunksOf500 rest).length) :
    bulkLoop rest c total =
      ((chunksOf500 rest).map BulkEvent.fetch).intersperse BulkEvent.delay := by
  by_cases h : rest.isEmpty
  · rw [List.isEmpty_iff.mp h, chunksOf500_nil,
      show bulkLoop [] c total = [] from by rw [bulkLoop.eq_def]; rfl]
    rfl
  · rw [chunksOf500_cons rest h] at ht ⊢
    rw [bulkLoop.eq_def, if_neg (by simpa using h)]
    rw [List.length_cons] at ht
    by_cases hd : (rest.drop 500).isEmpty
    · have hnil : chunksOf500 (rest.drop 500) = [] := by
        rw [List.isEmpty_iff.mp hd, chunksOf500_nil]
      rw [hnil] at ht ⊢
      simp only [List.length_nil] at ht
      rw [if_neg (by omega)]
      rw [show bulkLoop (rest.drop 500) (c + 1) total = [] from by
        rw [List.isEmpty_iff.mp hd, bulkLoop.eq_def]; rfl]
      rfl
    · obtain ⟨d0, drest, hd0⟩ : ∃ d0 drest,
          chunksOf500 (rest.drop 500) = d0 :: drest := by
        cases hcc : chunksOf500 (rest.drop 500) with
        | nil =>
            rw [chunksOf500_eq_nil_iff] at hcc
            rw [hcc] at hd
            simp at hd
        | cons d0 drest => exact ⟨d0, drest, rfl⟩
      rw [hd0] at ht ⊢
      have hlt : c < total := by
        simp only [List.length_cons] at ht
        omega
      rw [if_pos hlt]
      rw [bulkLoop_intersperse (rest.drop 500) (c + 1) total
        (by rw [hd0]; simp only [List.length_cons] at ht ⊢; omega)]
      rw [hd0]
      simp only [List.map_cons]
      rw [List.intersperse_cons_cons]
      rfl
termination_by rest.length
decreasing_by
  simp only [List.length_drop]
  cases rest with
  | nil => simp_all
  | cons x xs => simp; omega

/-- C4: `downloadFinancialsForTickerList` partitions its ticker list in
order into `ceil(n/500)` chunks of at most 500 tickers, issues one bulk
fetch per chunk, and inserts the pacing delay after every chunk except
the last; a 1200-ticker list yields exactly three calls of 500, 500 and
200 tickers. -/
theorem c4_chunking_and_pacing (tickers : List String) :
    (chunksOf500 tickers).flatten = tickers
    ∧ (chunksOf500 tickers).length = totalBatches tickers.length
    ∧ (∀ c ∈ chunksOf500 tickers, c.length ≤ 500)
    ∧ tickerListEvents tickers =
        ((chunksOf500 tickers).map BulkEvent.fetch).intersperse BulkEvent.delay
    ∧ (chunksOf500 (List.replicate 1200 "T")).map List.length =
        [500, 500, 200] := by
  refine ⟨chunksOf500_join tickers, chunksOf500_length tickers,
    chunksOf500_le tickers, ?_, ?_⟩
  · rw [tickerListEvents]
    apply bulkLoop_intersperse
    rw [chunksOf500_length tickers]
    omega
  · rw [chunksOf500_map_length, List.length_replicate]
    have h0 : chunkLens 0 = [] := by
      rw [chunkLens.eq_def]
      norm_num
    have h200 : chunkLens 200 = [200] := by
      rw [chunkLens.eq_def]
      norm_num
      exact h0
    have h700 : chunkLens 700 = [500, 200] := by
      rw [chunkLens.eq_def]
      norm_num
      exact h200
    rw [chunkLens.eq_def]
    norm_num
    exact h700

/-- Witness for C4 at a tiny input: three tickers make one chunk and
no pacing delay. -/
theorem c4_chunking_and_pacing_witness :
    (chunksOf500 ["A", "B", "C"]).flatten = ["A", "B", "C"]
    ∧ tickerListEvents ["A", "B", "C"] =
        ((chunksOf500 ["A", "B", "C"]).map BulkEvent.fetch).intersperse
          BulkEvent.delay :=
  ⟨(c4_chunking_and_pacing ["A", "B", "C"]).1,
   (c4_chunking_and_pacing ["A", "B", "C"]).2.2.2.1⟩

/-- C5 (evidence of the code bug): a bulk period entry lacking a filing
date under a non-date dictionary key produces an Invalid Date whose
`toISOString()` throws `RangeError` — the code does not drop the entry
silently; the whole ticker's processing aborts, and the per-ticker
`catch` in the bulk loop then discards even its dateable entries. -/
theorem c5_undateable_entry_throws :
    processBulkFinancialData "ACME" undateablePayload =
      .error .rangeError
    ∧ processChunk [undateablePayload] = ([], [])
    ∧ getClose "quarterly_last_1" = none
    ∧ processBulkFinancialData "GOOD" dateableBulkPayload =
        .ok ([[("filing_date", .jsUndefined), ("freeCashFlow", .jnum 42),
               ("ticker", .jstr "GOOD"), ("symbol", .jstr "GOOD"),
               ("date", .jdate (some 1708030800))]], []) :=
  ⟨rfl, rfl, rfl, rfl⟩

/-- C6 counterexample: an ETF payload with an empty financials section
throws the ETF error, not `NoFinancialsError`, because the `ETF_Data`
check precedes the empty-financials check. -/
theorem c6_etf_precedence_counterexample :
    fetchFinancials "SPY" etfPayload = .error .etf
    ∧ financialsEmpty etfPayload = true
    ∧ fetchFinancials "SPY" etfPayload ≠ .error .noFinancials := by
  refine ⟨rfl, rfl, ?_⟩
  intro h
  rw [show fetchFinancials "SPY" etfPayload = .error .etf from rfl] at h
  exact JsError.noConfusion (Except.error.inj h)

/-- `buildMap` can only throw the Invalid-Date `RangeError`. -/
theorem buildMap_error_rangeError (t : String) (m0 : JMap)
    (entries : List (String × JValue)) (e : JsError)
    (h : buildMap t m0 entries = .error e) : e = .rangeError := by
  induction entries generalizing m0 with
  | nil =>
      rw [buildMap, List.foldlM_nil] at h
      exact Except.noConfusion h
  | cons en rest ih =>
      rw [buildMap_cons] at h
      cases hs : normStep t m0 en with
      | ok m1 =>
          rw [hs] at h
          exact ih m1 h
      | error err =>
          rw [hs] at h
          have herr : Except.error (α := JMap) err = Except.error e := h
          have : err = e := Except.error.inj herr
          subst this
          rw [normStep, recordKey_processFinancialData] at hs
          cases hti : toIso (getClose (chosenDateStr en.2 en.1)) with
          | ok key =>
              rw [hti] at hs
              exact Except.noConfusion hs
          | error e2 =>
              rw [hti] at hs
              have he2 : e2 = err := Except.error.inj hs
              cases hg : getClose (chosenDateStr en.2 en.1) with
              | some tt => rw [hg, toIso] at hti; exact Except.noConfusion hti
              | none =>
                  rw [hg, toIso] at hti
                  have : JsError.rangeError = e2 := Except.error.inj hti
                  rw [← he2, ← this]

/-- Skipped payloads contribute nothing to a bulk chunk accumulator. -/
theorem bulkTickerStep_skip (acc : List RecordJ × List RecordJ) (p : JValue)
    (h : jsTruthy (jsGet p "ETF_Data") = true ∨ financialsEmpty p = true) :
    bulkTickerStep acc p = acc := by
  rw [bulkTickerStep]
  split
  · split_ifs with h1 h2 h3
    · rfl
    · rfl
    · rfl
    · rcases h with h | h
      · exact absurd h h2
      · exact absurd h h3
  · rfl

/-- C6 (amended): the ETF check takes precedence over the
empty-financials check, so `fetchFinancials` throws the ETF error
exactly on payloads carrying the `ETF_Data` marker, and
`NoFinancialsError` exactly on missing payloads and on marker-free
payloads with an empty financials section; fetch errors propagate
unchanged through the single-ticker caller; in the bulk path the same
conditions skip the ticker, leaving the chunk's other tickers
unaffected. -/
theorem c6_error_conditions_amended :
    (∀ (t : String) (fo : JValue),
      fetchFinancials t fo = .error .noFinancials ↔
        (jsTruthy fo = false ∨
          (jsTruthy fo = true ∧ jsTruthy (jsGet fo "ETF_Data") = false ∧
            financialsEmpty fo = true)))
    ∧ (∀ (t : String) (fo : JValue),
        fetchFinancials t fo = .error .etf ↔
          (jsTruthy fo = true ∧ jsTruthy (jsGet fo "ETF_Data") = true))
    ∧ (∀ (env : WriteEnv) (t : String) (fo : JValue) (e : JsError),
        fetchFinancials t fo = .error e →
        (downloadFinancials env t fo).2 = .error e)
    ∧ (∀ (front tail : List JValue) (p : JValue),
        (jsTruthy (jsGet p "ETF_Data") = true ∨ financialsEmpty p = true) →
        processChunk (front ++ p :: tail) = processChunk (front ++ tail)) := by
  have hpass : ∀ (t : String) (fo : JValue) (e : JsError),
      jsTruthy fo = true → jsTruthy (jsGet fo "ETF_Data") = false →
      financialsEmpty fo = false →
      fetchFinancials t fo = .error e → e = .rangeError := by
    intro t fo e h1 h2 h3 h
    rw [fetchFinancials, if_neg (by simp [h1]), if_neg (by simp [h2]),
      if_neg (by simp [h3])] at h
    cases hq : buildMap t [] (quarterlyEntries fo) with
    | error e2 =>
        rw [hq] at h
        have he : Except.error (α := List RecordJ × List RecordJ) e2 =
            Except.error e := h
        rw [← Except.error.inj he]
        exact buildMap_error_rangeError t [] _ e2 hq
    | ok qm =>
        rw [hq] at h
        cases ha : buildMap t [] (yearlyEntries fo) with
        | error e2 =>
            rw [ha] at h
            have he : Except.error (α := List RecordJ × List RecordJ) e2 =
                Except.error e := h
            rw [← Except.error.inj he]
            exact buildMap_error_rangeError t [] _ e2 ha
        | ok am =>
            rw [ha] at h
            exact Except.noConfusion h
  have hguard1 : ∀ (t : String) (fo : JValue), jsTruthy fo = false →
      fetchFinancials t fo = .error .noFinancials := by
    intro t fo h1
    rw [fetchFinancials, if_pos (by simp [h1])]
    rfl
  have hguard2 : ∀ (t : String) (fo : JValue), jsTruthy fo = true →
      jsTruthy (jsGet fo "ETF_Data") = true →
      fetchFinancials t fo = .error .etf := by
    intro t fo h1 h2
    rw [fetchFinancials, if_neg (by simp [h1]), if_pos h2]
    rfl
  have hguard3 : ∀ (t : String) (fo : JValue), jsTruthy fo = true →
      jsTruthy (jsGet fo "ETF_Data") = false → financialsEmpty fo = true →
      fetchFinancials t fo = .error .noFinancials := by
    intro t fo h1 h2 h3
    rw [fetchFinancials, if_neg (by simp [h1]), if_neg (by simp [h2]),
      if_pos h3]
    rfl
  refine ⟨?_, ?_, ?_, ?_⟩
  · intro t fo
    constructor
    · intro h
      by_cases h1 : jsTruthy fo = true
      · by_cases h2 : jsTruthy (jsGet fo "ETF_Data") = true
        · rw [hguard2 t fo h1 h2] at h
          exact absurd (Except.error.inj h) (by intro hh; cases hh)
        · by_cases h3 : financialsEmpty fo = true
          · exact Or.inr ⟨h1, by simpa using h2, h3⟩
          · have := hpass t fo .noFinancials h1 (by simpa using h2)
              (by simpa using h3) h
            cases this
      · exact Or.inl (by simpa using h1)
    · rintro (h1 | ⟨h1, h2, h3⟩)
      · exact hguard1 t fo h1
      · exact hguard3 t fo h1 h2 h3
  · intro t fo
    constructor
    · intro h
      by_cases h1 : jsTruthy fo = true
      · by_cases h2 : jsTruthy (jsGet fo "ETF_Data") = true
        · exact ⟨h1, h2⟩
        · by_cases h3 : financialsEmpty fo = true
          · rw [hguard3 t fo h1 (by simpa using h2) h3] at h
            exact absurd (Except.error.inj h) (by intro hh; cases hh)
          · have := hpass t fo .etf h1 (by simpa using h2)
              (by simpa using h3) h
            cases this
      · rw [hguard1 t fo (by simpa using h1)] at h
        exact absurd (Except.error.inj h) (by intro hh; cases hh)
    · rintro ⟨h1, h2⟩
      exact hguard2 t fo h1 h2
  · intro env t fo e h
    rw [downloadFinancials, h]
  · intro front tail p h
    rw [processChunk, processChunk, List.foldl_append, List.foldl_append,
      List.foldl_cons, bulkTickerStep_skip _ p h]

/-- Witness for C6 (amended) at concrete payloads: a missing payload
throws `NoFinancialsError`, an ETF payload's error propagates through
the single-ticker caller, and an ETF payload inside a bulk chunk is
skipped without affecting the chunk's other ticker. -/
theorem c6_error_conditions_amended_witness :
    fetchFinancials "X" .jnull = .error .noFinancials
    ∧ (downloadFinancials ⟨false, false, false, false, false, false, false,
        false⟩ "SPY" etfPayload).2 = .error .etf
    ∧ processChunk ([dateableBulkPayload] ++ etfPayload :: []) =
        processChunk ([dateableBulkPayload] ++ []) :=
  ⟨(c6_error_conditions_amended.1 "X" .jnull).mpr (Or.inl rfl),
   c6_error_conditions_amended.2.2.1
     ⟨false, false, false, false, false, false, false, false⟩ "SPY"
     etfPayload .etf
     ((c6_error_conditions_amended.2.1 "SPY" etfPayload).mpr ⟨rfl, rfl⟩),
   c6_error_conditions_amended.2.2.2 [dateableBulkPayload] [] etfPayload
     (Or.inl rfl)⟩

/-- C7 counterexample: when the quarterly MongoDB bulk write throws,
`updateDatabaseAndBQ` propagates immediately — no BigQuery call is
attempted, contradicting "both write paths are attempted even if one
fails". -/
theorem c7_mongo_failure_blocks_bq_counterexample :
    (updateDatabaseAndBQ ⟨true, false, false, false, false, false, false,
      false⟩ [msftExpected] []).1 = [WStep.mongoQ]
    ∧ (updateDatabaseAndBQ ⟨true, false, false, false, false, false, false,
        false⟩ [msftExpected] []).2 = .error .writeError
    ∧ WStep.bqCreateQ ∉ (updateDatabaseAndBQ ⟨true, false, false, false,
        false, false, false, false⟩ [msftExpected] []).1 := by
  refine ⟨rfl, rfl, ?_⟩
  rw [show (updateDatabaseAndBQ ⟨true, false, false, false, false, false,
    false, false⟩ [msftExpected] []).1 = [WStep.mongoQ] from rfl]
  intro hmem
  rw [List.mem_singleton] at hmem
  exact WStep.noConfusion hmem

/-- The quarterly BigQuery stage always begins with the table-creation
call. -/
theorem bqCreateQ_mem_bqQuarterlyPhase (env : WriteEnv) :
    WStep.bqCreateQ ∈ (bqQuarterlyPhase env).1 := by
  rw [bqQuarterlyPhase]
  split_ifs <;> simp

/-- C7 (amended): inside `updateDatabaseAndBQ` every failure of the
analytical (BigQuery) stage-then-merge sequence is caught and only
logged, never re-thrown — the call still returns normally and the
document-store writes stay in place; but the two paths are not
independent in the claimed direction: a document-store (MongoDB) bulk
write failure propagates out of the function before any analytical call
is attempted. -/
theorem c7_dual_sink_amended :
    (∀ (env : WriteEnv) (q a : List RecordJ),
      (q.isEmpty = false → env.mongoQFails = false) →
      (a.isEmpty = false → env.mongoAFails = false) →
      (updateDatabaseAndBQ env q a).2 = .ok ())
    ∧ (∀ (env : WriteEnv) (q a : List RecordJ),
        (q.isEmpty = false → env.mongoQFails = false) →
        (a.isEmpty = false → env.mongoAFails = false) →
        q.isEmpty = false →
        WStep.bqCreateQ ∈ (updateDatabaseAndBQ env q a).1)
    ∧ (∀ (env : WriteEnv) (q a : List RecordJ),
        q.isEmpty = false → env.mongoQFails = true →
        (updateDatabaseAndBQ env q a).2 = .error .writeError ∧
          ∀ s ∈ (updateDatabaseAndBQ env q a).1, s = WStep.mongoQ) := by
  have hcond : ∀ (env : WriteEnv) (q a : List RecordJ),
      (q.isEmpty = false → env.mongoQFails = false) →
      (a.isEmpty = false → env.mongoAFails = false) →
      ¬(¬q.isEmpty = true ∧ env.mongoQFails = true) ∧
        ¬(¬a.isEmpty = true ∧ env.mongoAFails = true) := by
    intro env q a hq ha
    constructor
    · rintro ⟨h1, h2⟩
      rw [hq (by simpa using h1)] at h2
      exact Bool.noConfusion h2
    · rintro ⟨h1, h2⟩
      rw [ha (by simpa using h1)] at h2
      exact Bool.noConfusion h2
  refine ⟨?_, ?_, ?_⟩
  · intro env q a hq ha
    obtain ⟨hc1, hc2⟩ := hcond env q a hq ha
    rw [updateDatabaseAndBQ, if_neg hc1, if_neg hc2]
  · intro env q a hq ha hqne
    obtain ⟨hc1, hc2⟩ := hcond env q a hq ha
    rw [updateDatabaseAndBQ, if_neg hc1, if_neg hc2]
    simp only [List.mem_append]
    right
    rw [bqPhase, if_neg (by simp [hqne])]
    by_cases hthrew : (bqQuarterlyPhase env).2 = true
    · rw [if_pos hthrew]
      exact bqCreateQ_mem_bqQuarterlyPhase env
    · rw [if_neg hthrew]
      exact List.mem_append_left _ (bqCreateQ_mem_bqQuarterlyPhase env)
  · intro env q a hq hfail
    have hc : ¬q.isEmpty = true ∧ env.mongoQFails = true :=
      ⟨by simp [hq], hfail⟩
    rw [updateDatabaseAndBQ, if_pos hc]
    exact ⟨rfl, by intro s hs; rw [List.mem_singleton] at hs; exact hs⟩

/-- Witness for C7 (amended): with both Mongo writes succeeding and the
BigQuery merge failing, the call still returns `ok` and the analytical
path was attempted; with the quarterly Mongo write failing, the call
throws and only the Mongo call was attempted. -/
theorem c7_dual_sink_amended_witness :
    (updateDatabaseAndBQ ⟨false, false, false, false, true, false, false,
      false⟩ [msftExpected] []).2 = .ok ()
    ∧ WStep.bqCreateQ ∈ (updateDatabaseAndBQ ⟨false, false, false, false,
        true, false, false, false⟩ [msftExpected] []).1
    ∧ (updateDatabaseAndBQ ⟨true, false, false, false, false, false, false,
        false⟩ [msftExpected] []).2 = .error .writeError :=
  ⟨c7_dual_sink_amended.1
      ⟨false, false, false, false, true, false, false, false⟩ [msftExpected]
      [] (fun _ => rfl) (fun _ => rfl),
   c7_dual_sink_amended.2.1
      ⟨false, false, false, false, true, false, false, false⟩ [msftExpected]
      [] (fun _ => rfl) (fun _ => rfl) rfl,
   (c7_dual_sink_amended.2.2
      ⟨true, false, false, false, false, false, false, false⟩ [msftExpected]
      [] rfl rfl).1⟩

/-- C8: the MERGE statement's column list comes solely from the keys of
the one sampled temp-table row (the merge model has no schema input at
all); an empty temp table samples no row and the derived column list is
empty. -/
theorem c8_merge_columns_from_sample :
    (∀ (env : MergeEnv) (rows : List RecordJ), env.sampleRows = some rows →
      MStep.mergeQuery (columnsFromSample rows) ∈
        (mergeTempTableToMainTable env).1)
    ∧ columnsFromSample [] = []
    ∧ (∀ (r : RecordJ) (rest : List RecordJ),
        columnsFromSample (r :: rest) = r.map Prod.fst) := by
  refine ⟨?_, rfl, fun r rest => rfl⟩
  intro env rows h
  obtain ⟨s, mf, df⟩ := env
  simp only at h
  subst h
  cases mf <;> simp [mergeTempTableToMainTable]

/-- Witness for C8: a concrete merge call whose sample returned one row
with exactly the keys `ticker` and `revenue`. -/
theorem c8_merge_columns_from_sample_witness :
    MStep.mergeQuery
      (columnsFromSample [[("ticker", .jstr "A"), ("revenue", .jnum 5)]]) ∈
      (mergeTempTableToMainTable
        ⟨some [[("ticker", .jstr "A"), ("revenue", .jnum 5)]],
          false, false⟩).1 :=
  c8_merge_columns_from_sample.1
    ⟨some [[("ticker", .jstr "A"), ("revenue", .jnum 5)]], false, false⟩
    [[("ticker", .jstr "A"), ("revenue", .jnum 5)]] rfl

/-- C9: the temp-table drop is attempted on the success path and on
every error path of `mergeTempTableToMainTable` (sample failure and
merge failure included), and a drop failure changes neither the trace
nor the outcome — it is logged, never escalated. -/
theorem c9_drop_always_attempted (s : Option (List RecordJ)) (m d : Bool) :
    MStep.dropQuery ∈ (mergeTempTableToMainTable ⟨s, m, d⟩).1
    ∧ (mergeTempTableToMainTable ⟨s, m, true⟩).1 =
        (mergeTempTableToMainTable ⟨s, m, false⟩).1
    ∧ (mergeTempTableToMainTable ⟨s, m, true⟩).2 =
        (mergeTempTableToMainTable ⟨s, m, false⟩).2
    ∧ (m = true → (mergeTempTableToMainTable ⟨s, m, d⟩).2 =
        .error .writeError) := by
  cases s with
  | none =>
      refine ⟨?_, rfl, rfl, fun _ => rfl⟩
      rw [mergeTempTableToMainTable]
      simp
  | some rows =>
      cases m with
      | true =>
          refine ⟨?_, rfl, rfl, fun _ => rfl⟩
          rw [mergeTempTableToMainTable]
          simp
      | false =>
          refine ⟨?_, rfl, rfl, fun h => Bool.noConfusion h⟩
          rw [mergeTempTableToMainTable]
          simp

/-- Witness for C9 at a concrete environment (merge fails, drop fails):
the drop is still attempted and the merge failure is what the caller
sees. -/
theorem c9_drop_always_attempted_witness :
    MStep.dropQuery ∈ (mergeTempTableToMainTable
      ⟨some [[("ticker", .jstr "A")]], true, true⟩).1
    ∧ (mergeTempTableToMainTable
        ⟨some [[("ticker", .jstr "A")]], true, true⟩).2 =
        .error .writeError :=
  ⟨(c9_drop_always_attempted (some [[("ticker", .jstr "A")]]) true true).1,
   (c9_drop_always_attempted (some [[("ticker", .jstr "A")]]) true
      true).2.2.2 rfl⟩

/-- Per-field behaviour of the write-time numeric filter over a record
with duplicate-free keys (JSON objects never repeat keys). -/
theorem filterNumericFields_getField (r : RecordJ)
    (h : (r.map Prod.fst).Nodup) (k : String) :
    getFieldOpt (filterNumericFields r) k =
      match getFieldOpt r k with
      | none => none
      | some v =>
          if k = "ticker" ∨ k = "symbol" ∨ k = "date" then some v
          else
            match jsToNumber v with
            | some n => some (.jnum n)
            | none => none := by
  have hstep_eq : ∀ (acc : RecordJ) (p : String × JValue), p.1 = k →
      getFieldOpt (numericFilterStep acc p) k =
        (if k = "ticker" ∨ k = "symbol" ∨ k = "date" then some p.2
         else
          match jsToNumber p.2 with
          | some n => some (.jnum n)
          | none => getFieldOpt acc k) := by
    intro acc p hpk
    rw [numericFilterStep]
    by_cases hid : p.1 = "ticker" ∨ p.1 = "symbol" ∨ p.1 = "date"
    · rw [if_pos hid, if_pos (hpk ▸ hid), getFieldOpt_setField, if_pos hpk]
    · rw [if_neg hid, if_neg (hpk ▸ hid)]
      cases hn : jsToNumber p.2 with
      | some n =>
          show getFieldOpt (setField acc p.1 (.jnum n)) k = some (.jnum n)
          rw [getFieldOpt_setField, if_pos hpk]
      | none => rfl
  have hstep_ne : ∀ (acc : RecordJ) (p : String × JValue), p.1 ≠ k →
      getFieldOpt (numericFilterStep acc p) k = getFieldOpt acc k := by
    intro acc p hpk
    rw [numericFilterStep]
    by_cases hid : p.1 = "ticker" ∨ p.1 = "symbol" ∨ p.1 = "date"
    · rw [if_pos hid, getFieldOpt_setField, if_neg hpk]
    · rw [if_neg hid]
      cases hn : jsToNumber p.2 with
      | some n =>
          show getFieldOpt (setField acc p.1 (.jnum n)) k = getFieldOpt acc k
          rw [getFieldOpt_setField, if_neg hpk]
      | none => rfl
  have haux : ∀ (r2 : RecordJ) (acc : RecordJ), (r2.map Prod.fst).Nodup →
      getFieldOpt (r2.foldl numericFilterStep acc) k =
      match getFieldOpt r2 k with
      | none => getFieldOpt acc k
      | some v =>
          if k = "ticker" ∨ k = "symbol" ∨ k = "date" then some v
          else
            match jsToNumber v with
            | some n => some (.jnum n)
            | none => getFieldOpt acc k := by
    intro r2
    induction r2 with
    | nil =>
        intro acc hnd
        simp [getFieldOpt, lookupPair]
    | cons p rest ih =>
        intro acc hnd
        have hrest : (rest.map Prod.fst).Nodup := (List.nodup_cons.mp hnd).2
        have hnot : p.1 ∉ rest.map Prod.fst := (List.nodup_cons.mp hnd).1
        rw [List.foldl_cons, ih _ hrest]
        by_cases hpk : p.1 = k
        · have hrnone : getFieldOpt rest k = none := by
            apply getFieldOpt_eq_none_of_not_mem
            rw [← hpk]
            exact hnot
          have hcons : getFieldOpt (p :: rest) k = some p.2 := by
            rw [getFieldOpt, lookupPair, if_pos hpk]
          rw [hrnone, hcons, hstep_eq acc p hpk]
        · have hcons : getFieldOpt (p :: rest) k = getFieldOpt rest k := by
            rw [getFieldOpt, lookupPair, if_neg hpk]
            rfl
          rw [hcons, hstep_ne acc p hpk]
  have hmain := haux r [] h
  rw [filterNumericFields, hmain]
  cases getFieldOpt r k with
  | none => rfl
  | some v =>
      dsimp only
      by_cases hid : k = "ticker" ∨ k = "symbol" ∨ k = "date"
      · rw [if_pos hid, if_pos hid]
      · rw [if_neg hid, if_neg hid]
        cases jsToNumber v <;> rfl

/-- C10: the write-time numeric filter passes `ticker`/`symbol`/`date`
through unchanged and admits every other field whose `Number(value)` is
not `NaN` (native numbers included), storing `Number(value)`; `null`,
the empty string, and numeric strings all pass (null and `""` become
`0`) even though schema inference admits only fields observed as native
numbers. -/
theorem c10_write_time_numeric_filter (r : RecordJ)
    (h : (r.map Prod.fst).Nodup) :
    (∀ k, (k = "ticker" ∨ k = "symbol" ∨ k = "date") →
      getFieldOpt (filterNumericFields r) k = getFieldOpt r k)
    ∧ (∀ k, ¬(k = "ticker" ∨ k = "symbol" ∨ k = "date") →
        getFieldOpt (filterNumericFields r) k =
          match getFieldOpt r k with
          | some v => (jsToNumber v).map (fun n => .jnum n)
          | none => none)
    ∧ jsToNumber .jnull = some 0
    ∧ jsToNumber (.jstr "") = some 0
    ∧ (∀ n : Int, jsToNumber (.jnum n) = some n)
    ∧ jsToNumber (.jstr "125") = some 125
    ∧ getFieldOpt (filterNumericFields [("x", .jnull)]) "x" = some (.jnum 0)
    ∧ "x" ∉ (generateBigQuerySchema [[("x", .jnull)]]).map Prod.fst := by
  refine ⟨?_, ?_, rfl, rfl, fun n => rfl, rfl, rfl, by decide⟩
  · intro k hk
    rw [filterNumericFields_getField r h k]
    cases getFieldOpt r k with
    | none => rfl
    | some v =>
        dsimp only
        rw [if_pos hk]
  · intro k hk
    rw [filterNumericFields_getField r h k]
    cases getFieldOpt r k with
    | none => rfl
    | some v =>
        dsimp only
        rw [if_neg hk]
        cases jsToNumber v <;> rfl

/-- Witness for C10 at a concrete record: identity fields unchanged;
`null` stored as `0`; a numeric string coerced; a non-numeric string
dropped. -/
theorem c10_write_time_numeric_filter_witness :
    getFieldOpt (filterNumericFields
      [("ticker", .jstr "A"), ("cash", .jnull), ("ratio", .jstr "12"),
       ("note", .jstr "n/a")]) "ticker" =
      getFieldOpt [("ticker", .jstr "A"), ("cash", .jnull),
        ("ratio", .jstr "12"), ("note", .jstr "n/a")] "ticker"
    ∧ getFieldOpt (filterNumericFields
        [("ticker", .jstr "A"), ("cash", .jnull), ("ratio", .jstr "12"),
         ("note", .jstr "n/a")]) "note" =
      match getFieldOpt [("ticker", .jstr "A"), ("cash", .jnull),
        ("ratio", .jstr "12"), ("note", .jstr "n/a")] "note" with
      | some v => (jsToNumber v).map (fun n => .jnum n)
      | none => none :=
  ⟨(c10_write_time_numeric_filter
      [("ticker", .jstr "A"), ("cash", .jnull), ("ratio", .jstr "12"),
       ("note", .jstr "n/a")] (by decide)).1 "ticker" (Or.inl rfl),
   (c10_write_time_numeric_filter
      [("ticker", .jstr "A"), ("cash", .jnull), ("ratio", .jstr "12"),
       ("note", .jstr "n/a")] (by decide)).2.1 "note" (by decide)⟩

end FinUp

